import Mathlib

/-!
Verification development for the be-schema positional schema codec.

The Go sources are shallowly embedded: byte strings become `List Char`
(the inputs exercised by the library are ASCII, where Go's byte length
and our character length agree), Go's `interface{}` values decoded from
JSON become the `Value` inductive, structs with `beschema` tags become
`Record` / `RecordTy` trees, and fallible operations return `Except DErr`.
JSON numbers are modelled exactly as decimal mantissa/exponent pairs
(`m / 10 ^ e`), matching the decimal renderings Go's trusted
`encoding/json` library emits for `float64` values.
-/

namespace BeSchema

/-- Byte strings of the Go code, as character lists. -/
abbrev Str := List Char

/-- Go `strings.Split(s, sep)` helper: prepend a character to the first chunk. -/
def consHead (c : Char) : List Str → List Str
  | [] => [[c]]
  | l :: ls => (c :: l) :: ls

/-- Go `strings.Split(s, "\r\n")`: split around each non-overlapping
occurrence of CRLF, scanning left to right. -/
def splitCRLF : Str → List Str
  | [] => [[]]
  | [c] => [[c]]
  | c1 :: c2 :: rest =>
    if c1 = '\r' ∧ c2 = '\n' then [] :: splitCRLF rest
    else consHead c1 (splitCRLF (c2 :: rest))

/-- Go `strings.Split(s, "\n")`: split around each newline character. -/
def splitLF : Str → List Str
  | [] => [[]]
  | c :: rest => if c = '\n' then [] :: splitLF rest else consHead c (splitLF rest)

/-- Whether the string contains the two-character sequence CRLF. -/
def hasCRLF : Str → Bool
  | [] => false
  | [_] => false
  | c1 :: c2 :: rest => (c1 = '\r' && c2 = '\n') || hasCRLF (c2 :: rest)

/-- The whitespace set of Go `unicode.IsSpace` restricted to Latin-1
(the full Unicode space classes never occur in the codec's frames). -/
def isSpaceCh (c : Char) : Bool :=
  c.toNat = 9 || c.toNat = 10 || c.toNat = 11 || c.toNat = 12 ||
  c.toNat = 13 || c.toNat = 32 || c.toNat = 133 || c.toNat = 160

/-- Go `strings.TrimSpace`: drop whitespace from both ends. -/
def trim (s : Str) : Str :=
  ((s.dropWhile isSpaceCh).reverse.dropWhile isSpaceCh).reverse

/-- Decimal digit character for a value below ten. -/
def digitChar (d : Nat) : Char := Char.ofNat (48 + d)

/-- Whether a character is an ASCII decimal digit. -/
def isDigitCh (c : Char) : Bool := 48 ≤ c.toNat && c.toNat ≤ 57

/-- Numeric value of an ASCII digit character. -/
def charDigit (c : Char) : Nat := c.toNat - 48

/-- Most-significant-first decimal digits of a natural number. -/
def digitsMSD (n : Nat) : List Nat :=
  if n = 0 then [0] else (Nat.digits 10 n).reverse

/-- Decimal rendering of a natural number, as Go `fmt.Sprintf("%d", n)`
produces for non-negative values. -/
def renderNat (n : Nat) : Str := (digitsMSD n).map digitChar

/-- Value of a most-significant-first digit list. -/
def valMSD (l : List Nat) : Nat := l.foldl (fun a d => 10 * a + d) 0

/-- Go `strconv.Atoi` on an unsigned body: the whole string must be one
or more decimal digits. -/
def digitsVal? (s : Str) : Option Nat :=
  if s = [] then none
  else if s.all isDigitCh then some (valMSD (s.map charDigit)) else none

/-- Go `strconv.Atoi`: optional sign followed by decimal digits, the whole
input consumed.  (Overflow of `int` is not modelled; the codec's sizes
stay far below it.) -/
def atoi (s : Str) : Option Int :=
  match s with
  | [] => none
  | c :: t =>
    if c = '+' then (digitsVal? t).map (fun n => (n : Int))
    else if c = '-' then (digitsVal? t).map (fun n => -(n : Int))
    else (digitsVal? (c :: t)).map (fun n => (n : Int))

/-!
Data model.  `Value` is the universe of JSON-decoded Go `interface{}`
values: `nil`, `bool`, `float64` (modelled exactly as a decimal
`m / 10 ^ e`), `string`, and `[]interface{}`.
-/

/-- A JSON-decoded dynamic value (`interface{}` after `json.Unmarshal`). -/
inductive Value where
  | null : Value
  | bool (b : Bool) : Value
  | num (m : Int) (e : Nat) : Value
  | str (s : Str) : Value
  | arr (xs : List Value) : Value

/-- A Go struct value: each field carries its name, its parsed `beschema`
tag (`none` when the tag is absent or does not parse as an integer, which
is exactly when `strconv.Atoi` fails in the source), and its value.
Supported field kinds are the ones `setFieldValue` handles: string,
integer, float, bool, and nested structs. -/
inductive FieldVal where
  | str (s : Str) : FieldVal
  | int (n : Int) : FieldVal
  | float (m : Int) (e : Nat) : FieldVal
  | bool (b : Bool) : FieldVal
  | record (fs : List (Str × Option Int × FieldVal)) : FieldVal

/-- The shape of a Go struct type: field names, parsed `beschema` tags and
field kinds, as reflection exposes them to the decoder. -/
inductive FieldTy where
  | str : FieldTy
  | int : FieldTy
  | float : FieldTy
  | bool : FieldTy
  | record (fs : List (Str × Option Int × FieldTy)) : FieldTy

/-- A struct value, as its ordered field list. -/
abbrev Record := List (Str × Option Int × FieldVal)

/-- A struct type shape, as its ordered field list. -/
abbrev RecordTy := List (Str × Option Int × FieldTy)

/-!
Array Codec, encode direction: the model of `structToArray`
(src/explicit.go lines 361-440, the tag-ordered version).
-/

/-- Field-position resolution of `structToArray` / `arrayToStruct`
(src/explicit.go lines 386-392): the parsed `beschema` tag when present,
otherwise the 1-based declaration index. -/
def resolveTag (i : Nat) : Option Int → Int
  | some t => t
  | none => (i : Int) + 1

/-- Go `sort.Slice(fields, func(i, j) { return fields[i].tagValue < fields[j].tagValue })`
(src/explicit.go lines 402-404).  Modelled as a stable insertion sort:
for the field counts the library handles, Go's sort uses insertion sort,
which keeps fields with equal tags in declaration order. -/
def insertByTag {α : Type} (x : Int × α) : List (Int × α) → List (Int × α)
  | [] => [x]
  | y :: ys => if y.1 < x.1 then y :: insertByTag x ys else x :: y :: ys

/-- Sort a tagged list by tag value, stably. -/
def sortByTag {α : Type} (L : List (Int × α)) : List (Int × α) := L.foldr insertByTag []

/-- The maximum-tag fold of `structToArray` (src/explicit.go lines 407-412):
starts at 0 and only ever increases, so non-positive tags never contribute. -/
def maxTag {α : Type} (L : List (Int × α)) : Int :=
  L.foldl (fun m tv => if tv.1 > m then tv.1 else m) 0

/-- The placement loop of `structToArray` (src/explicit.go lines 421-437):
write each field's value at index `tag - 1`, skipping out-of-range tags;
later writes overwrite earlier ones. -/
def placeInto (init : List Value) (L : List (Int × Value)) : List Value :=
  L.foldl (fun acc tv =>
    if 0 ≤ tv.1 - 1 ∧ tv.1 - 1 < (acc.length : Int) then acc.set (tv.1 - 1).toNat tv.2
    else acc) init

/-- Tag resolution, sorting, null-initialised allocation of length
`maxTagValue`, and placement, exactly as `structToArray` sequences them. -/
def placeFields (L : List (Int × Value)) : List Value :=
  placeInto (List.replicate (maxTag (sortByTag L)).toNat Value.null) (sortByTag L)

mutual
/-- Conversion of one struct field value to its JSON-compatible value:
scalars directly, nested structs through the recursive `structToArray`
call (src/explicit.go lines 427-436). -/
def encodeVal : FieldVal → Value
  | .str s => .str s
  | .int n => .num n 0
  | .float m e => .num m e
  | .bool b => .bool b
  | .record fs => .arr (placeFields (tagFields 0 fs))

/-- The field-collection loop of `structToArray` (src/explicit.go lines
377-399): pair each field's resolved tag with its converted value.
(The source converts nested structs at placement time; conversion is
independent of placement order, so converting at collection time is
observationally identical.) -/
def tagFields (i : Nat) : Record → List (Int × Value)
  | [] => []
  | (_, tag, v) :: rest => (resolveTag i tag, encodeVal v) :: tagFields (i + 1) rest
end

/-- `structToArray` (src/explicit.go lines 361-440) on a struct value. -/
def structToArray (r : Record) : List Value := placeFields (tagFields 0 r)

/-!
Array Codec, decode direction: the models of `arrayToStruct`,
`populateStructFromArray` and `setFieldValue`
(src/explicit.go lines 445-637, the tag-ordered version).
-/

/-- The distinct error kinds the codec returns (each constructor stands
for one `fmt.Errorf` site, carrying the values the message interpolates). -/
inductive DErr where
  | format : DErr
  | sizeFormat : DErr
  | sizeMismatch (expected actual : Int) : DErr
  | jsonErr : DErr
  | typeMismatch (name : Str) : DErr
  | streamFormat : DErr
  | frameAt (line : Nat) (e : DErr) : DErr
deriving DecidableEq

/-- The digit list of `|m|`, left-padded with zeros to at least `e + 1`
digits when a decimal point will be inserted. -/
def decDigits (m : Int) (e : Nat) : List Nat :=
  if e = 0 then digitsMSD m.natAbs
  else List.replicate (e + 1 - (digitsMSD m.natAbs).length) 0 ++ digitsMSD m.natAbs

/-- The unsigned decimal body of `|m| / 10 ^ e`, with the point inserted
`e` digits from the right when `e` is positive. -/
def decBody (m : Int) (e : Nat) : Str :=
  if e = 0 then (decDigits m e).map digitChar
  else ((decDigits m e).take ((decDigits m e).length - e)).map digitChar ++
    '.' :: ((decDigits m e).drop ((decDigits m e).length - e)).map digitChar

/-- Decimal rendering of `m / 10 ^ e`, the exact form Go's JSON encoder
and `%v` emit for the `float64` values this model represents. -/
def renderNum (m : Int) (e : Nat) : Str :=
  if m < 0 then '-' :: decBody m e else decBody m e

/-- JSON spelling of null. -/
def nullLit : Str := ['n', 'u', 'l', 'l']

/-- JSON spelling of true. -/
def trueLit : Str := ['t', 'r', 'u', 'e']

/-- JSON spelling of false. -/
def falseLit : Str := ['f', 'a', 'l', 's', 'e']

mutual
/-- Go `fmt.Sprintf("%v", value)` on a JSON-decoded value, used by
`setFieldValue` when a non-string value meets a string field. -/
def goFormatValue : Value → Str
  | .null => ['<', 'n', 'i', 'l', '>']
  | .bool true => trueLit
  | .bool false => falseLit
  | .num m e => renderNum m e
  | .str s => s
  | .arr xs => '[' :: goFormatList xs ++ [']']

def goFormatList : List Value → Str
  | [] => []
  | [x] => goFormatValue x
  | x :: rest => goFormatValue x ++ ' ' :: goFormatList rest
end

/-- Maximal run of decimal digits at the head of a string. -/
def takeDigits : Str → (List Nat × Str)
  | [] => ([], [])
  | c :: t =>
    if isDigitCh c then
      let p := takeDigits t
      (charDigit c :: p.1, p.2)
    else ([], c :: t)

/-- Unsigned decimal body `digits [. digits]`, returning the mantissa,
the number of fractional digits, and the remainder. -/
def parseDecBody (s : Str) : Option (Nat × Nat × Str) :=
  if (takeDigits s).1 = [] then none
  else
    match (takeDigits s).2 with
    | [] => some (valMSD (takeDigits s).1, 0, [])
    | c :: r2 =>
      if c = '.' then
        if (takeDigits r2).1 = [] then none
        else
          some (valMSD (takeDigits s).1 * 10 ^ (takeDigits r2).1.length +
            valMSD (takeDigits r2).1, (takeDigits r2).1.length, (takeDigits r2).2)
      else some (valMSD (takeDigits s).1, 0, c :: r2)

/-- Go `strconv.ParseFloat` restricted to plain decimal literals, the
only forms this codec's data can contain. -/
def parseFloatStr (s : Str) : Option (Int × Nat) :=
  match s with
  | [] => none
  | c :: t =>
    if c = '-' then
      match parseDecBody t with
      | some (n, e, []) => some (-(n : Int), e)
      | _ => none
    else if c = '+' then
      match parseDecBody t with
      | some (n, e, []) => some ((n : Int), e)
      | _ => none
    else
      match parseDecBody (c :: t) with
      | some (n, e, []) => some ((n : Int), e)
      | _ => none

/-- Go `strconv.ParseBool`: the exact accepted spellings. -/
def parseBoolStr (s : Str) : Option Bool :=
  if s = ['1'] ∨ s = ['t'] ∨ s = ['T'] ∨ s = ['T', 'R', 'U', 'E'] ∨
      s = ['t', 'r', 'u', 'e'] ∨ s = ['T', 'r', 'u', 'e'] then some true
  else if s = ['0'] ∨ s = ['f'] ∨ s = ['F'] ∨ s = ['F', 'A', 'L', 'S', 'E'] ∨
      s = ['f', 'a', 'l', 's', 'e'] ∨ s = ['F', 'a', 'l', 's', 'e'] then some false
  else none

mutual
/-- The zero value of a field type (a fresh Go struct's field contents). -/
def zeroOfTy : FieldTy → FieldVal
  | .str => .str []
  | .int => .int 0
  | .float => .float 0 0
  | .bool => .bool false
  | .record fs => .record (zeroFields fs)

/-- The zero value of a struct shape. -/
def zeroFields : RecordTy → Record
  | [] => []
  | (n, t, ty) :: rest => (n, t, zeroOfTy ty) :: zeroFields rest
end

/-- `setFieldValue` (src/explicit.go lines 586-637).  Fields are always
at their zero value when the source calls this, so "leave the field
unset" is modelled as returning the zero value.  The source's
`default: unsupported field type` branch is unreachable here because
`FieldTy` has exactly the supported kinds. -/
def setFieldValue (ty : FieldTy) (v : Value) : FieldVal :=
  match v with
  | .null => zeroOfTy ty
  | v =>
    match ty with
    | .str =>
      match v with
      | .str s => .str s
      | v => .str (goFormatValue v)
    | .int =>
      match v with
      | .num m e => .int (Int.tdiv m ((10 : Int) ^ e))
      | .str s =>
        match atoi s with
        | some n => .int n
        | none => .int 0
      | _ => .int 0
    | .float =>
      match v with
      | .num m e => .float m e
      | .str s =>
        match parseFloatStr s with
        | some (m, e) => .float m e
        | none => .float 0 0
      | _ => .float 0 0
    | .bool =>
      match v with
      | .bool b => .bool b
      | .str s =>
        match parseBoolStr s with
        | some b => .bool b
        | none => .bool false
      | _ => .bool false
    | .record fs => .record (zeroFields fs)

mutual
/-- One field of `populateStructFromArray` (src/explicit.go lines 557-578):
a nested-struct field recurses when the element is an array and is left
untouched (zero) otherwise — this nested path reports no error; scalar
fields go through `setFieldValue`. -/
def populateField : FieldTy → Value → FieldVal
  | .record fs, .arr sub => .record (populateFields sub 0 fs)
  | .record fs, _ => .record (zeroFields fs)
  | ty, v => setFieldValue ty v

/-- `populateStructFromArray` (src/explicit.go lines 523-581).  The source
iterates fields in tag-sorted order mutating a zero struct; each field's
final value depends only on its own slot `arr[tag-1]` and no branch of
this nested path can fail, so the result equals this declaration-order
construction. -/
def populateFields (arr : List Value) : Nat → RecordTy → Record
  | _, [] => []
  | i, (n, tag, ty) :: rest =>
    let t := resolveTag i tag
    let fv :=
      if 0 ≤ t - 1 ∧ t - 1 < (arr.length : Int) then
        populateField ty (arr.getD (t - 1).toNat Value.null)
      else zeroOfTy ty
    (n, tag, fv) :: populateFields arr (i + 1) rest
end

mutual
/-- The reflected shape of a struct value: the type `T` that
`UnmarshalExplicitSchema[T]` would be instantiated with to produce it. -/
def typeOfVal : FieldVal → FieldTy
  | .str _ => .str
  | .int _ => .int
  | .float _ _ => .float
  | .bool _ => .bool
  | .record fs => .record (typeOfFields fs)

/-- The reflected shape of a struct's field list. -/
def typeOfFields : Record → RecordTy
  | [] => []
  | (n, t, v) :: rest => (n, t, typeOfVal v) :: typeOfFields rest
end

/-- One field of the top-level `arrayToStruct` loop (src/explicit.go lines
490-515): unlike the nested path, a struct-typed field whose element is
not an array (including null) is an error naming the field. -/
def decodeTopField (name : Str) (ty : FieldTy) (v : Value) : Except DErr FieldVal :=
  match ty with
  | .record fs =>
    match v with
    | .arr sub => .ok (.record (populateFields sub 0 fs))
    | _ => .error (.typeMismatch name)
  | ty => .ok (setFieldValue ty v)

/-- Per-field outcomes of the `arrayToStruct` loop, in declaration order,
each paired with its resolved tag.  Out-of-range tags are skipped,
leaving the field zero (src/explicit.go lines 490-494). -/
def topFieldResults (arr : List Value) : Nat → RecordTy → List (Int × Except DErr FieldVal)
  | _, [] => []
  | i, (n, tag, ty) :: rest =>
    let t := resolveTag i tag
    let r :=
      if 0 ≤ t - 1 ∧ t - 1 < (arr.length : Int) then
        decodeTopField n ty (arr.getD (t - 1).toNat Value.null)
      else .ok (zeroOfTy ty)
    (t, r) :: topFieldResults arr (i + 1) rest

/-- The first error a tag-ordered scan of the field outcomes meets. -/
def firstErr : List (Int × Except DErr FieldVal) → Option DErr
  | [] => none
  | (_, .error e) :: _ => some e
  | _ :: rest => firstErr rest

/-- Reassemble the struct from the per-field outcomes in declaration order. -/
def assemble : RecordTy → List (Int × Except DErr FieldVal) → Record
  | [], _ => []
  | (n, tag, ty) :: fs, [] => (n, tag, zeroOfTy ty) :: assemble fs []
  | (n, tag, ty) :: fs, (_, r) :: rs =>
    (n, tag, match r with | .ok v => v | .error _ => zeroOfTy ty) :: assemble fs rs

/-- `arrayToStruct` (src/explicit.go lines 445-518).  The source sorts the
fields by tag and mutates a zero struct, aborting at the first error;
fields are independent (each reads only its own slot), so this equals:
compute every field's outcome, fail with the first error in tag-sorted
order if any, otherwise assemble the record. -/
def arrayToStruct (arr : List Value) (fs : RecordTy) : Except DErr Record :=
  match firstErr (sortByTag (topFieldResults arr 0 fs)) with
  | some e => .error e
  | none => .ok (assemble fs (topFieldResults arr 0 fs))

/-- The resolved positions of a record's fields in declaration order,
starting at field index `i` (proof helper: the position list both codec
directions agree on). -/
def resolvedTags : Nat → Record → List Int
  | _, [] => []
  | i, (_, tag, _) :: rest => resolveTag i tag :: resolvedTags (i + 1) rest

/-- Boolean duplicate-freedom of a position list. -/
def nodupB : List Int → Bool
  | [] => true
  | x :: xs => !(decide (x ∈ xs)) && nodupB xs

mutual
/-- Well-formedness of a field value for the round-trip claim: nested
records must carry pairwise-distinct positive resolved positions at
every level. -/
def wfVal : FieldVal → Bool
  | .str _ => true
  | .int _ => true
  | .float _ _ => true
  | .bool _ => true
  | .record fs =>
    ((resolvedTags 0 fs).all fun t => decide (0 < t)) &&
      nodupB (resolvedTags 0 fs) && wfList fs

/-- Well-formedness of every field value of a record. -/
def wfList : Record → Bool
  | [] => true
  | (_, _, v) :: rest => wfVal v && wfList rest
end

/-- Lowercase hexadecimal digit. -/
def hexChar (n : Nat) : Char :=
  if n < 10 then Char.ofNat (48 + n) else Char.ofNat (87 + n)

/-- Go's JSON string escaping for one character: quotes and backslashes,
the short escapes for LF, CR and TAB, `\u00xx` for the remaining control
characters and (HTML escaping, on by default in `json.Marshal`) for
angle brackets and ampersands, `\u202x` for the line separators. -/
def escapeChar (c : Char) : Str :=
  if c = '"' then ['\\', '"']
  else if c = '\\' then ['\\', '\\']
  else if c = '\n' then ['\\', 'n']
  else if c = '\r' then ['\\', 'r']
  else if c = '\t' then ['\\', 't']
  else if c = '<' ∨ c = '>' ∨ c = '&' ∨ c.toNat < 32 then
    ['\\', 'u', '0', '0', hexChar (c.toNat / 16), hexChar (c.toNat % 16)]
  else if c.toNat = 8232 ∨ c.toNat = 8233 then
    ['\\', 'u', '2', '0', '2', hexChar (c.toNat % 16)]
  else [c]

/-- Escape every character of a string body. -/
def escAll : Str → Str
  | [] => []
  | c :: t => escapeChar c ++ escAll t

mutual
/-- `json.Marshal` on a decoded value. -/
def jsonRender : Value → Str
  | .null => nullLit
  | .bool true => trueLit
  | .bool false => falseLit
  | .num m e => renderNum m e
  | .str s => '"' :: escAll s ++ ['"']
  | .arr xs => '[' :: jsonRenderElems xs ++ [']']

/-- Comma-separated rendering of array elements. -/
def jsonRenderElems : List Value → Str
  | [] => []
  | [x] => jsonRender x
  | x :: rest => jsonRender x ++ ',' :: jsonRenderElems rest
end

/-- JSON insignificant whitespace. -/
def isJsonWs (c : Char) : Bool := c = ' ' || c = '\t' || c = '\n' || c = '\r'

/-- Skip insignificant whitespace. -/
def skipWs (s : Str) : Str := s.dropWhile isJsonWs

/-- Value of one hexadecimal digit character. -/
def hexVal (c : Char) : Option Nat :=
  if isDigitCh c then some (charDigit c)
  else if 97 ≤ c.toNat ∧ c.toNat ≤ 102 then some (c.toNat - 87)
  else if 65 ≤ c.toNat ∧ c.toNat ≤ 70 then some (c.toNat - 55)
  else none

/-- Parse a JSON string body after the opening quote, handling escapes;
returns the decoded content and the remainder after the closing quote. -/
def parseStringBody : Str → Option (Str × Str)
  | [] => none
  | c :: rest =>
    if c = '"' then some ([], rest)
    else if c = '\\' then
      match rest with
      | [] => none
      | e :: r2 =>
        if e = '"' then (parseStringBody r2).map (fun p => ('"' :: p.1, p.2))
        else if e = '\\' then (parseStringBody r2).map (fun p => ('\\' :: p.1, p.2))
        else if e = '/' then (parseStringBody r2).map (fun p => ('/' :: p.1, p.2))
        else if e = 'b' then (parseStringBody r2).map (fun p => (Char.ofNat 8 :: p.1, p.2))
        else if e = 'f' then (parseStringBody r2).map (fun p => (Char.ofNat 12 :: p.1, p.2))
        else if e = 'n' then (parseStringBody r2).map (fun p => ('\n' :: p.1, p.2))
        else if e = 'r' then (parseStringBody r2).map (fun p => ('\r' :: p.1, p.2))
        else if e = 't' then (parseStringBody r2).map (fun p => ('\t' :: p.1, p.2))
        else if e = 'u' then
          match r2 with
          | h1 :: h2 :: h3 :: h4 :: r3 =>
            match hexVal h1, hexVal h2, hexVal h3, hexVal h4 with
            | some a, some b, some c2, some d =>
              (parseStringBody r3).map
                (fun p => (Char.ofNat (4096 * a + 256 * b + 16 * c2 + d) :: p.1, p.2))
            | _, _, _, _ => none
          | _ => none
        else none
    else (parseStringBody rest).map (fun p => (c :: p.1, p.2))

/-- Match a literal tail, returning the remainder. -/
def expectLit : Str → Str → Option Str
  | [], s => some s
  | _ :: _, [] => none
  | c :: cs, d :: ds => if c = d then expectLit cs ds else none

/-- Parse a JSON number token. -/
def parseNumTok (s : Str) : Option (Value × Str) :=
  match s with
  | [] => none
  | c :: t =>
    if c = '-' then
      match parseDecBody t with
      | some (n, e, r) => some (.num (-(n : Int)) e, r)
      | none => none
    else
      match parseDecBody (c :: t) with
      | some (n, e, r) => some (.num (n : Int) e, r)
      | none => none

mutual
/-- Fuel-indexed JSON value parser.  The fuel only bounds recursion depth;
`jsonParse` supplies enough for any input it is given. -/
def parseValue : Nat → Str → Option (Value × Str)
  | 0, _ => none
  | fuel + 1, s =>
    match s with
    | [] => none
    | c :: rest =>
      if c = 'n' then (expectLit ['u', 'l', 'l'] rest).map (fun r => (.null, r))
      else if c = 't' then (expectLit ['r', 'u', 'e'] rest).map (fun r => (.bool true, r))
      else if c = 'f' then (expectLit ['a', 'l', 's', 'e'] rest).map (fun r => (.bool false, r))
      else if c = '"' then (parseStringBody rest).map (fun p => (.str p.1, p.2))
      else if c = '[' then
        match skipWs rest with
        | [] => none
        | d :: r2 =>
          if d = ']' then some (.arr [], r2)
          else (parseElems fuel (d :: r2)).map (fun p => (.arr p.1, p.2))
      else parseNumTok (c :: rest)

/-- Parse one or more comma-separated values up to the closing bracket. -/
def parseElems : Nat → Str → Option (List Value × Str)
  | 0, _ => none
  | fuel + 1, s =>
    match parseValue fuel s with
    | none => none
    | some (v, rest) =>
      match skipWs rest with
      | [] => none
      | d :: r2 =>
        if d = ',' then
          match parseElems fuel (skipWs r2) with
          | some (vs, r3) => some (v :: vs, r3)
          | none => none
        else if d = ']' then some ([v], r2)
        else none
end

mutual
/-- Fuel sufficient for `parseValue` on this value's rendering. -/
def fuelOf : Value → Nat
  | .arr xs => 1 + elemsFuel xs
  | _ => 1

/-- Fuel sufficient for `parseElems` on these elements' rendering. -/
def elemsFuel : List Value → Nat
  | [] => 1
  | x :: rest => 1 + fuelOf x + elemsFuel rest
end

/-- The characters that may legitimately follow a rendered JSON value
inside a rendered array. -/
def delimOk : Str → Prop
  | [] => True
  | c :: _ => c = ',' ∨ c = ']'

/-- `json.Unmarshal` of one JSON value: the whole input, surrounded by
optional whitespace, must be a single value. -/
def jsonParse (s : Str) : Option Value :=
  match parseValue (2 * s.length + 2) (skipWs s) with
  | some (v, rest) => if skipWs rest = [] then some v else none
  | none => none

/-!
Frame Codec: the `size CRLF json CRLF` envelope shared by
`MarshalExplicitSchema` / `UnmarshalExplicitSchema` (src/explicit.go
lines 283-349) and the implicit-schema pair (src/implicit_test.go
lines 204-256).
-/

/-- The CRLF line terminator. -/
def CRLF : Str := ['\r', '\n']

/-- The `fmt.Sprintf("%d\r\n%s\r\n", size, jsonData)` frame with
`size = len(jsonData) + 2` (src/explicit.go lines 296-298). -/
def wrapFrame (json : Str) : Str := renderNat (json.length + 2) ++ CRLF ++ json ++ CRLF

/-- The line-splitting step of both unmarshal functions (src/explicit.go
lines 313-320): split on CRLF; retry on bare LF only when the CRLF split
yields fewer than two segments. -/
def frameLines (data : Str) : List Str :=
  if (splitCRLF data).length < 2 then splitLF data else splitCRLF data

/-- The shared head of both unmarshal functions (src/explicit.go lines
310-335): fail `format` when even the LF fallback yields fewer than two
segments; parse the trimmed first segment as the declared size, failing
`sizeFormat`; fail `sizeMismatch` carrying both sizes when
`len(trimmed payload) + 2` differs from the declared size; otherwise
yield the trimmed payload. -/
def unwrapFrame (data : Str) : Except DErr Str :=
  if (frameLines data).length < 2 then .error .format
  else
    match atoi (trim ((frameLines data).getD 0 [])) with
    | none => .error .sizeFormat
    | some expected =>
      if ((trim ((frameLines data).getD 1 [])).length : Int) + 2 ≠ expected then
        .error (.sizeMismatch expected (((trim ((frameLines data).getD 1 [])).length : Int) + 2))
      else .ok (trim ((frameLines data).getD 1 []))

/-- `MarshalExplicitSchema` (src/explicit.go lines 283-301).  Total: on a
`Record` input neither `structToArray` nor `json.Marshal` can fail. -/
def MarshalExplicitSchema (r : Record) : Str :=
  wrapFrame (jsonRender (.arr (structToArray r)))

/-- `UnmarshalExplicitSchema` (src/explicit.go lines 306-349), with the
target struct type passed as a shape.  A `null` payload unmarshals into
a nil slice in Go, which the decode loop treats as an empty array. -/
def UnmarshalExplicitSchema (fs : RecordTy) (data : Str) : Except DErr Record :=
  match unwrapFrame data with
  | .error e => .error e
  | .ok json =>
    match jsonParse json with
    | some (.arr vs) => arrayToStruct vs fs
    | some .null => arrayToStruct [] fs
    | _ => .error .jsonErr

/-- `ImplicitSchema` (src/implicit_test.go line 202): an untyped ordered
value sequence. -/
abbrev ImplicitSchema := List Value

/-- `MarshalImplicitSchema` (src/implicit_test.go lines 204-218). -/
def MarshalImplicitSchema (schema : ImplicitSchema) : Str :=
  wrapFrame (jsonRender (.arr schema))

/-- `UnmarshalImplicitSchema` (src/implicit_test.go lines 220-256). -/
def UnmarshalImplicitSchema (data : Str) : Except DErr ImplicitSchema :=
  match unwrapFrame data with
  | .error e => .error e
  | .ok json =>
    match jsonParse json with
    | some (.arr vs) => .ok vs
    | some .null => .ok []
    | _ => .error .jsonErr

/-!
Stream Codec (src/unnamed/part_005).
-/

/-- A parsed stream: magic marker bytes plus the decoded schemas. -/
structure Stream where
  magicByte : Str
  schemas : List ImplicitSchema

/-- Concatenation of the framed schemas appended after the marker
(src/unnamed/part_005 lines 82-88). -/
def joinFrames : List ImplicitSchema → Str
  | [] => []
  | sch :: rest => MarshalImplicitSchema sch ++ joinFrames rest

/-- `MarshalImplicitStream` (src/unnamed/part_005 lines 73-91): marker,
blank line, then each schema's frame.  Modelled from the spec: the
header-framed `MarshalImplicitSchema(schema, true)` variant the stream
code calls is not under src; per spec section 6 its `true` mode is the
header-framed codec, i.e. `MarshalImplicitSchema` above. -/
def MarshalImplicitStream (s : Stream) : Str :=
  s.magicByte ++ CRLF ++ CRLF ++ joinFrames s.schemas

/-- The pair-consuming loop of `UnmarshalImplicitStream`
(src/unnamed/part_005 lines 38-60), over the lines from index 2 on:
skip blank lines, rejoin each (size, payload) line pair with the
detected line ending and feed it through the frame decoder, wrapping
any failure with the offending line index.  Modelled from the spec: the
`UnmarshalImplicitSchema(sizeData, true)` header-framed variant is not
under src; per spec section 6 its `true` mode is the header-framed
codec, i.e. `UnmarshalImplicitSchema` above. -/
def parsePairs (lineEnding : Str) : Nat → List Str → Except DErr (List ImplicitSchema)
  | _, [] => .ok []
  | _, [_] => .ok []
  | i, l1 :: l2 :: rest =>
    if trim l1 = [] then parsePairs lineEnding (i + 1) (l2 :: rest)
    else
      match UnmarshalImplicitSchema (l1 ++ lineEnding ++ l2 ++ lineEnding) with
      | .error e => .error (.frameAt i e)
      | .ok sch =>
        match parsePairs lineEnding (i + 2) rest with
        | .error e => .error e
        | .ok more => .ok (sch :: more)

/-- `UnmarshalImplicitStream` (src/unnamed/part_005 lines 18-66): split on
CRLF falling back to LF, require at least 3 lines, take line 0 as the
marker and consume (size, payload) pairs from line 2 on. -/
def UnmarshalImplicitStream (data : Str) : Except DErr Stream :=
  let cr := splitCRLF data
  if cr.length < 3 then
    let lf := splitLF data
    if lf.length < 3 then .error .streamFormat
    else
      match parsePairs ['\n'] 2 (lf.drop 2) with
      | .error e => .error e
      | .ok schemas => .ok ⟨lf.getD 0 [], schemas⟩
  else
    match parsePairs CRLF 2 (cr.drop 2) with
    | .error e => .error e
    | .ok schemas => .ok ⟨cr.getD 0 [], schemas⟩

/-- The line pairs a framed schema list contributes to the stream body:
each frame is a size line followed by its JSON line (proof helper for the
stream round-trip). -/
def frameLineList : List ImplicitSchema → List Str
  | [] => []
  | sch :: rest =>
    renderNat ((jsonRender (.arr sch)).length + 2) ::
      jsonRender (.arr sch) :: frameLineList rest

/-!
Lemma development.
-/

/- Basic lemmas about the splitters. -/

theorem consHead_ne_nil (c : Char) (ls : List Str) : consHead c ls ≠ [] := by
  cases ls <;> simp [consHead]

theorem splitCRLF_ne_nil (s : Str) : splitCRLF s ≠ [] := by
  induction s using splitCRLF.induct with
  | case1 => simp [splitCRLF]
  | case2 c => simp [splitCRLF]
  | case3 c1 c2 rest h ih => simp only [splitCRLF, if_pos h]; simp
  | case4 c1 c2 rest h ih =>
    simp only [splitCRLF, if_neg h]
    exact consHead_ne_nil _ _

theorem splitLF_ne_nil (s : Str) : splitLF s ≠ [] := by
  induction s with
  | nil => simp [splitLF]
  | cons c rest ih =>
    by_cases h : c = '\n'
    · simp [splitLF, h]
    · simp only [splitLF, if_neg h]
      exact consHead_ne_nil _ _

theorem splitCRLF_append (a b : Str) (h : hasCRLF a = false) :
    splitCRLF (a ++ '\r' :: '\n' :: b) = a :: splitCRLF b := by
  induction a using hasCRLF.induct with
  | case1 =>
    simp only [List.nil_append, splitCRLF]
    simp
  | case2 c =>
    simp only [List.cons_append, List.nil_append, splitCRLF]
    rw [if_neg (by simp)]
    simp [consHead]
  | case3 c1 c2 rest ih =>
    simp only [hasCRLF, Bool.or_eq_false_iff, Bool.and_eq_false_iff] at h
    simp only [List.cons_append, splitCRLF]
    rw [if_neg (by rcases h.1 with h1 | h1 <;> simp_all)]
    have harr : c2 :: rest.append ('\r' :: '\n' :: b) = (c2 :: rest) ++ '\r' :: '\n' :: b := rfl
    rw [harr, ih h.2]
    simp [consHead]

theorem splitCRLF_of_no_crlf (s : Str) (h : hasCRLF s = false) :
    splitCRLF s = [s] := by
  induction s using hasCRLF.induct with
  | case1 => simp [splitCRLF]
  | case2 c => simp [splitCRLF]
  | case3 c1 c2 rest ih =>
    simp only [hasCRLF, Bool.or_eq_false_iff, Bool.and_eq_false_iff] at h
    simp only [splitCRLF]
    rw [if_neg (by rcases h.1 with h1 | h1 <;> simp_all), ih h.2]
    simp [consHead]

/- Decimal digit machinery. -/

theorem valMSD_foldl (B : List Nat) (a : Nat) :
    B.foldl (fun x d => 10 * x + d) a = a * 10 ^ B.length + valMSD B := by
  induction B generalizing a with
  | nil => simp [valMSD]
  | cons d B ih =>
    simp only [List.foldl_cons, valMSD, List.length_cons]
    rw [ih (10 * a + d), ih (10 * 0 + d)]
    ring

theorem valMSD_append (A B : List Nat) :
    valMSD (A ++ B) = valMSD A * 10 ^ B.length + valMSD B := by
  simp only [valMSD, List.foldl_append]
  rw [valMSD_foldl]
  rfl

theorem valMSD_reverse_eq_ofDigits (L : List Nat) :
    valMSD L.reverse = Nat.ofDigits 10 L := by
  induction L with
  | nil => simp [valMSD]
  | cons d L ih =>
    rw [List.reverse_cons, valMSD_append, ih, Nat.ofDigits_cons]
    simp [valMSD]
    ring

theorem valMSD_digitsMSD (n : Nat) : valMSD (digitsMSD n) = n := by
  unfold digitsMSD
  by_cases h : n = 0
  · simp [h, valMSD]
  · rw [if_neg h, valMSD_reverse_eq_ofDigits]
    exact_mod_cast Nat.ofDigits_digits 10 n

theorem digitsMSD_lt (n d : Nat) (h : d ∈ digitsMSD n) : d < 10 := by
  unfold digitsMSD at h
  by_cases h0 : n = 0
  · simp [h0] at h; omega
  · rw [if_neg h0, List.mem_reverse] at h
    exact Nat.digits_lt_base (by norm_num) h

theorem digitChar_spec (d : Nat) (h : d < 10) :
    isDigitCh (digitChar d) = true ∧ charDigit (digitChar d) = d := by
  interval_cases d <;> exact ⟨by decide, by decide⟩

theorem isDigitCh_not_sign (c : Char) (h : isDigitCh c = true) :
    c ≠ '+' ∧ c ≠ '-' := by
  simp only [isDigitCh, Bool.and_eq_true, decide_eq_true_eq] at h
  constructor <;> rintro rfl <;> simp at h

theorem renderNat_ne_nil (n : Nat) : renderNat n ≠ [] := by
  unfold renderNat digitsMSD
  by_cases h : n = 0
  · simp [h]
  · rw [if_neg h]
    simp only [ne_eq, List.map_eq_nil_iff, List.reverse_eq_nil_iff]
    exact Nat.digits_ne_nil_iff_ne_zero.mpr h

theorem renderNat_all_digits (n : Nat) : (renderNat n).all isDigitCh = true := by
  rw [List.all_eq_true]
  intro c hc
  rw [renderNat, List.mem_map] at hc
  obtain ⟨d, hd, rfl⟩ := hc
  exact (digitChar_spec d (digitsMSD_lt n d hd)).1

theorem digitsVal?_renderNat (n : Nat) : digitsVal? (renderNat n) = some n := by
  rw [digitsVal?, if_neg (renderNat_ne_nil n), if_pos (renderNat_all_digits n)]
  congr 1
  rw [renderNat, List.map_map]
  have : (digitsMSD n).map (charDigit ∘ digitChar) = (digitsMSD n).map id := by
    apply List.map_congr_left
    intro d hd
    exact (digitChar_spec d (digitsMSD_lt n d hd)).2
  rw [this, List.map_id]
  exact valMSD_digitsMSD n

theorem dropWhile_eq_self_of_head (p : Char → Bool) (s : Str)
    (h : ∀ c, s.head? = some c → p c = false) : s.dropWhile p = s := by
  cases s with
  | nil => rfl
  | cons c t =>
    rw [List.dropWhile_cons_of_neg]
    simp [h c rfl]

theorem trim_eq_self (s : Str) (h1 : ∀ c, s.head? = some c → isSpaceCh c = false)
    (h2 : ∀ c, s.getLast? = some c → isSpaceCh c = false) : trim s = s := by
  unfold trim
  rw [dropWhile_eq_self_of_head _ _ h1]
  rw [dropWhile_eq_self_of_head _ _ ?_, List.reverse_reverse]
  intro c hc
  rw [List.head?_reverse] at hc
  exact h2 c hc

theorem isDigitCh_not_space (c : Char) (h : isDigitCh c = true) : isSpaceCh c = false := by
  simp only [isDigitCh, Bool.and_eq_true, decide_eq_true_eq] at h
  simp only [isSpaceCh, Bool.or_eq_false_iff, decide_eq_false_iff_not]
  omega

theorem trim_renderNat (n : Nat) : trim (renderNat n) = renderNat n := by
  have hall := renderNat_all_digits n
  rw [List.all_eq_true] at hall
  apply trim_eq_self
  · intro c hc
    exact isDigitCh_not_space c (hall c (List.mem_of_mem_head? (by simp [hc])))
  · intro c hc
    exact isDigitCh_not_space c (hall c (List.mem_of_mem_getLast? (by simp [hc])))

theorem atoi_renderNat (n : Nat) : atoi (renderNat n) = some (n : Int) := by
  rcases h : renderNat n with _ | ⟨c, t⟩
  · exact absurd h (renderNat_ne_nil n)
  · have hall := renderNat_all_digits n
    rw [h, List.all_cons, Bool.and_eq_true] at hall
    have hs := isDigitCh_not_sign c hall.1
    rw [atoi, if_neg hs.1, if_neg hs.2, ← h, digitsVal?_renderNat]
    rfl


/- Custom induction principles for the nested inductives. -/

theorem value_induction (P : Value → Prop) (h0 : P .null) (h1 : ∀ b, P (.bool b))
    (h2 : ∀ m e, P (.num m e)) (h3 : ∀ s, P (.str s))
    (h4 : ∀ xs, (∀ x ∈ xs, P x) → P (.arr xs)) : ∀ v, P v
  | .null => h0
  | .bool b => h1 b
  | .num m e => h2 m e
  | .str s => h3 s
  | .arr xs => h4 xs (fun x hx => value_induction P h0 h1 h2 h3 h4 x)
termination_by v => sizeOf v
decreasing_by
  have := List.sizeOf_lt_of_mem hx
  simp only [Value.arr.sizeOf_spec]
  omega

theorem fieldty_induction (P : FieldTy → Prop) (h1 : P .str) (h2 : P .int)
    (h3 : P .float) (h4 : P .bool)
    (h5 : ∀ fs, (∀ n t v, (n, t, v) ∈ fs → P v) → P (.record fs)) : ∀ v, P v
  | .str => h1
  | .int => h2
  | .float => h3
  | .bool => h4
  | .record fs => h5 fs (fun n t v hv => fieldty_induction P h1 h2 h3 h4 h5 v)
termination_by v => sizeOf v
decreasing_by
  have hlt := List.sizeOf_lt_of_mem hv
  simp only [FieldTy.record.sizeOf_spec]
  simp only [Prod.mk.sizeOf_spec] at hlt
  omega


/- Sorting and placement lemmas: the slot characterisation of `placeFields`. -/

theorem insertByTag_perm {α : Type} (x : Int × α) (L : List (Int × α)) :
    (insertByTag x L).Perm (x :: L) := by
  induction L with
  | nil => simp [insertByTag]
  | cons y ys ih =>
    rw [insertByTag]
    by_cases h : y.1 < x.1
    · rw [if_pos h]
      exact (ih.cons y).trans (List.Perm.swap x y ys)
    · rw [if_neg h]

theorem sortByTag_perm {α : Type} (L : List (Int × α)) : (sortByTag L).Perm L := by
  induction L with
  | nil => exact List.Perm.refl _
  | cons x xs ih =>
    exact (insertByTag_perm x (sortByTag xs)).trans (ih.cons x)

theorem maxTag_eq_foldl_max {α : Type} (L : List (Int × α)) :
    maxTag L = L.foldl (fun m tv => max m tv.1) 0 := by
  unfold maxTag
  congr 1
  funext m tv
  rw [max_def]
  split <;> split <;> omega

theorem foldl_max_init_le {α : Type} (L : List (Int × α)) (a : Int) :
    a ≤ L.foldl (fun m tv => max m tv.1) a := by
  induction L generalizing a with
  | nil => simp
  | cons x xs ih => exact le_trans (le_max_left a x.1) (ih (max a x.1))

theorem mem_le_foldl_max {α : Type} (L : List (Int × α)) (a : Int) (tv : Int × α)
    (h : tv ∈ L) : tv.1 ≤ L.foldl (fun m tv => max m tv.1) a := by
  induction L generalizing a with
  | nil => simp at h
  | cons x xs ih =>
    rcases List.mem_cons.mp h with rfl | h'
    · exact le_trans (le_max_right a tv.1) (foldl_max_init_le xs _)
    · exact ih _ h'

theorem mem_le_maxTag {α : Type} (L : List (Int × α)) (tv : Int × α) (h : tv ∈ L) :
    tv.1 ≤ maxTag L := by
  rw [maxTag_eq_foldl_max]
  exact mem_le_foldl_max L 0 tv h

theorem maxTag_nonneg {α : Type} (L : List (Int × α)) : 0 ≤ maxTag L := by
  rw [maxTag_eq_foldl_max]
  exact foldl_max_init_le L 0

theorem foldl_max_perm {α : Type} {L1 L2 : List (Int × α)} (h : L1.Perm L2) (a : Int) :
    L1.foldl (fun m tv => max m tv.1) a = L2.foldl (fun m tv => max m tv.1) a := by
  induction h generalizing a with
  | nil => rfl
  | cons x _ ih => simp only [List.foldl_cons]; exact ih _
  | swap x y l => simp only [List.foldl_cons]; rw [sup_right_comm]
  | trans _ _ ih1 ih2 => rw [ih1, ih2]

theorem maxTag_sortByTag {α : Type} (L : List (Int × α)) :
    maxTag (sortByTag L) = maxTag L := by
  rw [maxTag_eq_foldl_max, maxTag_eq_foldl_max]
  exact foldl_max_perm (sortByTag_perm L) 0

theorem filter_insertByTag {α : Type} (p : Int) (x : Int × α) (M : List (Int × α)) :
    (insertByTag x M).filter (fun tv => tv.1 = p) =
      if x.1 = p then x :: M.filter (fun tv => tv.1 = p)
      else M.filter (fun tv => tv.1 = p) := by
  induction M with
  | nil =>
    rw [insertByTag]
    by_cases hx : x.1 = p <;> simp [List.filter_cons, hx]
  | cons y ys ih =>
    rw [insertByTag]
    by_cases h : y.1 < x.1
    · rw [if_pos h]
      by_cases hx : x.1 = p
      · have hy : ¬(y.1 = p) := by omega
        simp [List.filter_cons, hy, hx, ih]
      · simp [List.filter_cons, ih, hx]
    · rw [if_neg h]
      by_cases hx : x.1 = p <;> simp [List.filter_cons, hx]

theorem filter_sortByTag {α : Type} (p : Int) (L : List (Int × α)) :
    (sortByTag L).filter (fun tv => tv.1 = p) = L.filter (fun tv => tv.1 = p) := by
  induction L with
  | nil => rfl
  | cons x xs ih =>
    have hs : sortByTag (x :: xs) = insertByTag x (sortByTag xs) := rfl
    rw [hs, filter_insertByTag]
    by_cases hx : x.1 = p
    · rw [if_pos hx, ih, List.filter_cons_of_pos (by simp [hx])]
    · rw [if_neg hx, ih, List.filter_cons_of_neg (by simp [hx])]

theorem placeInto_cons (init : List Value) (tv : Int × Value) (L : List (Int × Value)) :
    placeInto init (tv :: L) =
      placeInto
        (if 0 ≤ tv.1 - 1 ∧ tv.1 - 1 < (init.length : Int) then
          init.set (tv.1 - 1).toNat tv.2 else init) L := rfl

theorem placeInto_length (L : List (Int × Value)) (init : List Value) :
    (placeInto init L).length = init.length := by
  induction L generalizing init with
  | nil => rfl
  | cons tv L ih =>
    rw [placeInto_cons, ih]
    split <;> simp

theorem option_getD_of_isSome {α : Type} (o : Option α) (h : o.isSome = true) (d1 d2 : α) :
    o.getD d1 = o.getD d2 := by
  cases o with
  | none => simp at h
  | some v => rfl

theorem getLast?_cons_isSome {α : Type} (w : α) (ws : List α) :
    ((w :: ws).getLast?).isSome = true := by
  induction ws generalizing w with
  | nil => rfl
  | cons y ys ih => rw [List.getLast?_cons_cons]; exact ih y

theorem placeInto_getD (L : List (Int × Value)) (init : List Value) (j : Nat)
    (hj : j < init.length) :
    (placeInto init L).getD j Value.null =
      (((L.filter (fun tv => tv.1 = (j : Int) + 1)).getLast?).map Prod.snd).getD
        (init.getD j Value.null) := by
  induction L generalizing init with
  | nil => simp [placeInto]
  | cons tv L ih =>
    rw [placeInto_cons]
    set init' := (if 0 ≤ tv.1 - 1 ∧ tv.1 - 1 < (init.length : Int) then
      init.set (tv.1 - 1).toNat tv.2 else init) with hinit'
    have hlen : init'.length = init.length := by
      rw [hinit']; split <;> simp
    rw [ih init' (by rw [hlen]; exact hj)]
    by_cases htv : tv.1 = (j : Int) + 1
    · rw [List.filter_cons_of_pos (by simp [htv])]
      rcases hfl : L.filter (fun tv => tv.1 = (j : Int) + 1) with _ | ⟨w, ws⟩
      · rw [hfl]
        simp only [Option.map_none', Option.getD_none, List.getLast?_singleton,
          Option.map_some', Option.getD_some]
        have hcond : 0 ≤ tv.1 - 1 ∧ tv.1 - 1 < (init.length : Int) := by
          constructor <;> omega
        have hidx : (tv.1 - 1).toNat = j := by omega
        rw [hinit', if_pos hcond, hidx]
        simp [List.getD, List.getElem?_set, hj]
      · rw [hfl, List.getLast?_cons_cons]
        apply option_getD_of_isSome
        simp only [Option.isSome_map']
        exact getLast?_cons_isSome w ws
    · rw [List.filter_cons_of_neg (by simp [htv])]
      rcases hfl : L.filter (fun tv => tv.1 = (j : Int) + 1) with _ | ⟨w, ws⟩
      · rw [hfl]
        simp only [List.getLast?_nil, Option.map_none', Option.getD_none]
        rw [hinit']
        split
        · next hcond =>
          have hne2 : tv.1.toNat - 1 ≠ j := by omega
          simp [List.getD, List.getElem?_set, hne2]
        · rfl
      · rw [hfl]
        apply option_getD_of_isSome
        simp only [Option.isSome_map']
        exact getLast?_cons_isSome w ws

theorem placeFields_length (L : List (Int × Value)) :
    (placeFields L).length = (maxTag L).toNat := by
  unfold placeFields
  rw [placeInto_length, List.length_replicate, maxTag_sortByTag]

theorem placeFields_getD (L : List (Int × Value)) (j : Nat) (hj : j < (maxTag L).toNat) :
    (placeFields L).getD j Value.null =
      (((L.filter (fun tv => tv.1 = (j : Int) + 1)).getLast?).map Prod.snd).getD Value.null := by
  unfold placeFields
  rw [placeInto_getD _ _ j (by rw [List.length_replicate, maxTag_sortByTag]; exact hj)]
  rw [filter_sortByTag]
  have hrep : ∀ n k : Nat, (List.replicate n Value.null).getD k Value.null = Value.null := by
    intro n
    induction n with
    | zero => intro k; simp [List.getD]
    | succ n ih =>
      intro k
      cases k with
      | zero => simp [List.replicate_succ]
      | succ k => rw [List.replicate_succ, List.getD_cons_succ]; exact ih k
  rw [hrep]

theorem filter_eq_singleton_of_nodup (L : List (Int × Value)) (tv : Int × Value)
    (hnd : (L.map Prod.fst).Nodup) (hm : tv ∈ L) :
    L.filter (fun x => x.1 = tv.1) = [tv] := by
  induction L with
  | nil => simp at hm
  | cons y ys ih =>
    rw [List.map_cons, List.nodup_cons] at hnd
    rcases List.mem_cons.mp hm with rfl | hm'
    · rw [List.filter_cons_of_pos (by simp)]
      have hnil : ys.filter (fun x => x.1 = tv.1) = [] := by
        rw [List.filter_eq_nil_iff]
        intro a ha
        simp only [decide_eq_true_eq]
        intro hEq
        exact hnd.1 (hEq ▸ List.mem_map_of_mem Prod.fst ha)
      rw [hnil]
    · have hy : ¬(y.1 = tv.1) := by
        intro hEq
        exact hnd.1 (hEq ▸ List.mem_map_of_mem Prod.fst hm')
      rw [List.filter_cons_of_neg (by simp [hy]), ih hnd.2 hm']

theorem get?_eq_getD_of_lt {α : Type} (l : List α) (j : Nat) (d : α) (h : j < l.length) :
    l.get? j = some (l.getD j d) := by
  rw [List.getD_eq_getElem?_getD, List.get?_eq_getElem?]
  rcases hx : l[j]? with _ | v
  · rw [List.getElem?_eq_none_iff] at hx; omega
  · rfl

theorem get?_eq_none_of_ge {α : Type} (l : List α) (j : Nat) (h : ¬j < l.length) :
    l.get? j = none := by
  rw [List.get?_eq_getElem?, List.getElem?_eq_none_iff]; omega

theorem filter_filter_of_imp {α : Type} (p q : α → Bool) (L : List α)
    (h : ∀ x, p x = true → q x = true) : (L.filter q).filter p = L.filter p := by
  induction L with
  | nil => rfl
  | cons x xs ih =>
    by_cases hq : q x = true
    · by_cases hp : p x = true <;> simp [List.filter_cons, hq, hp, ih]
    · have hp : ¬p x = true := fun hp => hq (h x hp)
      simp [List.filter_cons, hq, hp, ih]

theorem foldl_max_filter_pos {α : Type} (L : List (Int × α)) (a : Int) (ha : 0 ≤ a) :
    L.foldl (fun m tv => max m tv.1) a =
      (L.filter (fun tv => 0 < tv.1)).foldl (fun m tv => max m tv.1) a := by
  induction L generalizing a with
  | nil => rfl
  | cons x xs ih =>
    by_cases hx : 0 < x.1
    · rw [List.filter_cons_of_pos (by simp [hx])]
      simp only [List.foldl_cons]
      exact ih (max a x.1) (le_trans ha (le_max_left a x.1))
    · rw [List.filter_cons_of_neg (by simp [hx])]
      simp only [List.foldl_cons]
      rw [max_eq_left (by omega)]
      exact ih a ha

theorem maxTag_filter_pos {α : Type} (L : List (Int × α)) :
    maxTag L = maxTag (L.filter (fun tv => 0 < tv.1)) := by
  rw [maxTag_eq_foldl_max, maxTag_eq_foldl_max]
  exact foldl_max_filter_pos L 0 le_rfl

theorem foldl_max_of_nonpos {α : Type} (L : List (Int × α)) (a : Int)
    (h : ∀ tv ∈ L, tv.1 ≤ a) : L.foldl (fun m tv => max m tv.1) a = a := by
  induction L with
  | nil => rfl
  | cons x xs ih =>
    simp only [List.foldl_cons]
    rw [max_eq_left (h x (by simp))]
    exact ih (fun tv htv => h tv (by simp [htv]))

theorem placeFields_filter_pos (L : List (Int × Value)) :
    placeFields L = placeFields (L.filter (fun tv => 0 < tv.1)) := by
  have himp : ∀ j : Nat, ∀ x : Int × Value,
      (decide (x.1 = (j : Int) + 1)) = true → (decide (0 < x.1)) = true := by
    intro j x hx
    simp only [decide_eq_true_eq] at hx ⊢
    omega
  apply List.ext_get?
  intro j
  by_cases hj : j < (maxTag L).toNat
  · rw [get?_eq_getD_of_lt _ _ Value.null (by rw [placeFields_length]; exact hj),
      get?_eq_getD_of_lt _ _ Value.null
        (by rw [placeFields_length, ← maxTag_filter_pos]; exact hj)]
    rw [placeFields_getD _ _ hj,
      placeFields_getD _ _ (by rw [← maxTag_filter_pos]; exact hj)]
    rw [filter_filter_of_imp _ _ L (himp j)]
  · rw [get?_eq_none_of_ge _ _ (by rw [placeFields_length]; exact hj),
      get?_eq_none_of_ge _ _ (by rw [placeFields_length, ← maxTag_filter_pos]; exact hj)]

/-- C2: for a record whose fields all carry positive positions, the encoded
array has length `max(position)` (0 with no fields); with pairwise-distinct
positions the slot at index `p-1` holds the value of the field assigned
position `p` (a nested sub-array for nested-record fields, by the shape of
`encodeVal`); every slot whose position no field occupies holds null; and
the two concrete spec examples: declaration order `[C(3), A(1), B(2)]`
encodes to `[A, B, C]`, and positions `{1, 3}` encode to a 3-element array
whose middle slot is null. -/
theorem c2_structToArray_shape :
    (∀ r : Record, (tagFields 0 r).all (fun tv => 0 < tv.1) = true →
      (structToArray r).length = (maxTag (tagFields 0 r)).toNat)
    ∧ (∀ r : Record, (tagFields 0 r).all (fun tv => 0 < tv.1) = true →
        ((tagFields 0 r).map Prod.fst).Nodup →
        ∀ tv ∈ tagFields 0 r,
          (structToArray r).getD (tv.1 - 1).toNat Value.null = tv.2)
    ∧ (∀ fs : Record, encodeVal (.record fs) = .arr (structToArray fs))
    ∧ (∀ r : Record, ∀ j : Nat, j < (structToArray r).length →
        (∀ tv ∈ tagFields 0 r, tv.1 ≠ (j : Int) + 1) →
        (structToArray r).getD j Value.null = Value.null)
    ∧ structToArray
        [(['C'], some 3, .str ['C']), (['A'], some 1, .str ['A']),
         (['B'], some 2, .str ['B'])] =
        [.str ['A'], .str ['B'], .str ['C']]
    ∧ structToArray [(['A'], some 1, .str ['A']), (['B'], some 3, .str ['B'])] =
        [.str ['A'], Value.null, .str ['B']] := by
  refine ⟨?_, ?_, fun fs => rfl, ?_, rfl, rfl⟩
  · intro r _
    exact placeFields_length (tagFields 0 r)
  · intro r hpos hnd tv htv
    have hp : 0 < tv.1 := by
      have := List.all_eq_true.mp hpos tv htv
      simpa using this
    have hle : tv.1 ≤ maxTag (tagFields 0 r) := mem_le_maxTag _ tv htv
    have hj : (tv.1 - 1).toNat < (maxTag (tagFields 0 r)).toNat := by omega
    show (placeFields (tagFields 0 r)).getD (tv.1 - 1).toNat Value.null = tv.2
    rw [placeFields_getD _ _ hj]
    rw [show (((tv.1 - 1).toNat : Int) + 1) = tv.1 from by omega]
    rw [filter_eq_singleton_of_nodup _ tv hnd htv]
    rfl
  · intro r j hlen hno
    have hj : j < (maxTag (tagFields 0 r)).toNat := by
      rw [show (structToArray r).length = (placeFields (tagFields 0 r)).length from rfl,
        placeFields_length] at hlen
      exact hlen
    show (placeFields (tagFields 0 r)).getD j Value.null = Value.null
    rw [placeFields_getD _ _ hj]
    have hfl : (tagFields 0 r).filter (fun tv => tv.1 = (j : Int) + 1) = [] := by
      rw [List.filter_eq_nil_iff]
      intro tv htv
      simpa using hno tv htv
    rw [hfl]
    rfl

/-- Witness for C2 at a concrete record: positions `{1, 3}` with string
values, checking the length, slot and gap conclusions. -/
theorem c2_structToArray_shape_witness :
    (structToArray [(['A'], some 1, FieldVal.str ['x']),
      (['B'], some 3, FieldVal.str ['y'])]).length =
      (maxTag (tagFields 0 [(['A'], some 1, FieldVal.str ['x']),
        (['B'], some 3, FieldVal.str ['y'])])).toNat
    ∧ (structToArray [(['A'], some 1, FieldVal.str ['x']),
        (['B'], some 3, FieldVal.str ['y'])]).getD (3 - 1 : Int).toNat Value.null =
        Value.str ['y']
    ∧ (structToArray [(['A'], some 1, FieldVal.str ['x']),
        (['B'], some 3, FieldVal.str ['y'])]).getD 1 Value.null = Value.null := by
  refine ⟨c2_structToArray_shape.1
      [(['A'], some 1, FieldVal.str ['x']), (['B'], some 3, FieldVal.str ['y'])]
      (by decide), ?_, ?_⟩
  · exact c2_structToArray_shape.2.1
      [(['A'], some 1, FieldVal.str ['x']), (['B'], some 3, FieldVal.str ['y'])]
      (by decide) (by simp [tagFields, resolveTag, encodeVal])
      (3, Value.str ['y']) (by simp [tagFields, resolveTag, encodeVal])
  · exact c2_structToArray_shape.2.2.2.1
      [(['A'], some 1, FieldVal.str ['x']), (['B'], some 3, FieldVal.str ['y'])]
      1 (by decide)
      (by intro tv htv
          simp [tagFields, resolveTag, encodeVal] at htv
          rcases htv with ⟨h1, _⟩ | ⟨h1, _⟩ <;> omega)

/-- C10: encoding is total (this model's encoder returns a plain list) and
a non-positive resolved position contributes nothing: the output equals the
output on the positively-positioned fields alone, the length is the
max-tag fold that only positive tags can raise, and a record whose every
field has a non-positive position encodes to the empty array. -/
theorem c10_nonpositive_positions_safe :
    (∀ L : List (Int × Value), placeFields L = placeFields (L.filter (fun tv => 0 < tv.1)))
    ∧ (∀ r : Record, (structToArray r).length = (maxTag (tagFields 0 r)).toNat)
    ∧ (∀ r : Record, (tagFields 0 r).all (fun tv => tv.1 ≤ 0) = true →
        structToArray r = []) := by
  refine ⟨placeFields_filter_pos, fun r => placeFields_length _, ?_⟩
  intro r hall
  have hmax : maxTag (tagFields 0 r) = 0 := by
    rw [maxTag_eq_foldl_max]
    apply foldl_max_of_nonpos
    intro tv htv
    simpa using List.all_eq_true.mp hall tv htv
  have : (structToArray r).length = 0 := by
    show (placeFields (tagFields 0 r)).length = 0
    rw [placeFields_length, hmax]
    rfl
  exact List.length_eq_zero.mp this

/-- Witness for C10: a two-field record with positions 0 and -2 encodes to
the empty array, and filtering the non-positive tags leaves the output
unchanged on a mixed concrete list. -/
theorem c10_nonpositive_positions_safe_witness :
    placeFields [(0, Value.str ['x']), (2, Value.str ['y']), (-3, Value.null)] =
      placeFields ([(0, Value.str ['x']), (2, Value.str ['y']),
        ((-3 : Int), Value.null)].filter (fun tv => 0 < tv.1))
    ∧ structToArray [(['A'], some 0, FieldVal.str ['x']),
        (['B'], some (-2), FieldVal.str ['y'])] = [] := by
  exact ⟨c10_nonpositive_positions_safe.1 _,
    c10_nonpositive_positions_safe.2.2 _ (by decide)⟩

/- Frame-layer lemmas: rendered JSON contains no line breaks and is
trim-invariant, so the CRLF framing splits it back intact. -/

theorem hasCRLF_eq_false_of_no_cr (s : Str) (h : '\r' ∉ s) : hasCRLF s = false := by
  induction s using hasCRLF.induct with
  | case1 => rfl
  | case2 c => rfl
  | case3 c1 c2 rest ih =>
    rw [hasCRLF]
    have h1 : ¬(c1 = '\r') := fun hc => h (by simp [hc])
    simp only [h1, decide_False, Bool.false_and, Bool.false_or]
    exact ih (fun hc => h (List.mem_cons_of_mem _ hc))

theorem hexChar_ne_crlf (n : Nat) (h : n < 16) : hexChar n ≠ '\r' ∧ hexChar n ≠ '\n' := by
  interval_cases n <;> exact ⟨by decide, by decide⟩

theorem escapeChar_no_crlf (c : Char) : ∀ ch ∈ escapeChar c, ch ≠ '\r' ∧ ch ≠ '\n' := by
  intro ch hch
  unfold escapeChar at hch
  split_ifs at hch with h1 h2 h3 h4 h5 h6 h7
  · simp only [List.mem_cons, List.not_mem_nil, or_false] at hch
    rcases hch with rfl | rfl <;> exact ⟨by decide, by decide⟩
  · simp only [List.mem_cons, List.not_mem_nil, or_false] at hch
    rcases hch with rfl | rfl <;> exact ⟨by decide, by decide⟩
  · simp only [List.mem_cons, List.not_mem_nil, or_false] at hch
    rcases hch with rfl | rfl <;> exact ⟨by decide, by decide⟩
  · simp only [List.mem_cons, List.not_mem_nil, or_false] at hch
    rcases hch with rfl | rfl <;> exact ⟨by decide, by decide⟩
  · simp only [List.mem_cons, List.not_mem_nil, or_false] at hch
    rcases hch with rfl | rfl <;> exact ⟨by decide, by decide⟩
  · have hlt : c.toNat < 256 := by
      rcases h6 with rfl | rfl | rfl | hc
      · exact by decide
      · exact by decide
      · exact by decide
      · omega
    simp only [List.mem_cons, List.not_mem_nil, or_false] at hch
    rcases hch with rfl | rfl | rfl | rfl | rfl | rfl
    · exact ⟨by decide, by decide⟩
    · exact ⟨by decide, by decide⟩
    · exact ⟨by decide, by decide⟩
    · exact ⟨by decide, by decide⟩
    · exact hexChar_ne_crlf _ (Nat.div_lt_of_lt_mul (by omega))
    · exact hexChar_ne_crlf _ (Nat.mod_lt _ (by omega))
  · simp only [List.mem_cons, List.not_mem_nil, or_false] at hch
    rcases hch with rfl | rfl | rfl | rfl | rfl | rfl
    · exact ⟨by decide, by decide⟩
    · exact ⟨by decide, by decide⟩
    · exact ⟨by decide, by decide⟩
    · exact ⟨by decide, by decide⟩
    · exact ⟨by decide, by decide⟩
    · exact hexChar_ne_crlf _ (Nat.mod_lt _ (by omega))
  · simp only [List.mem_singleton] at hch
    subst hch
    refine ⟨fun hc => ?_, fun hc => h3 hc⟩
    subst hc
    exact h6 (Or.inr (Or.inr (Or.inr (by decide))))

theorem escAll_no_crlf (s : Str) : ∀ ch ∈ escAll s, ch ≠ '\r' ∧ ch ≠ '\n' := by
  induction s with
  | nil => intro ch hch; simp [escAll] at hch
  | cons c t ih =>
    intro ch hch
    rw [escAll, List.mem_append] at hch
    rcases hch with h | h
    · exact escapeChar_no_crlf c ch h
    · exact ih ch h

theorem digitChar_ne_crlf (d : Nat) (h : d < 10) : digitChar d ≠ '\r' ∧ digitChar d ≠ '\n' := by
  interval_cases d <;> exact ⟨by decide, by decide⟩

theorem decDigits_lt (m : Int) (e : Nat) : ∀ d ∈ decDigits m e, d < 10 := by
  intro d hd
  unfold decDigits at hd
  split at hd
  · exact digitsMSD_lt _ _ hd
  · rcases List.mem_append.mp hd with h | h
    · rw [List.eq_of_mem_replicate h]; omega
    · exact digitsMSD_lt _ _ h

theorem decBody_chars (m : Int) (e : Nat) :
    ∀ ch ∈ decBody m e, ch = '.' ∨ isDigitCh ch = true := by
  intro ch hch
  unfold decBody at hch
  split at hch
  · obtain ⟨d, hd, rfl⟩ := List.mem_map.mp hch
    exact Or.inr (digitChar_spec d (decDigits_lt m e d hd)).1
  · rcases List.mem_append.mp hch with h | h
    · obtain ⟨d, hd, rfl⟩ := List.mem_map.mp h
      exact Or.inr (digitChar_spec d (decDigits_lt m e d (List.take_subset _ _ hd))).1
    · rcases List.mem_cons.mp h with rfl | h2
      · exact Or.inl rfl
      · obtain ⟨d, hd, rfl⟩ := List.mem_map.mp h2
        exact Or.inr (digitChar_spec d (decDigits_lt m e d (List.drop_subset _ _ hd))).1

theorem renderNum_chars (m : Int) (e : Nat) :
    ∀ ch ∈ renderNum m e, ch = '-' ∨ ch = '.' ∨ isDigitCh ch = true := by
  intro ch hch
  unfold renderNum at hch
  split at hch
  · rcases List.mem_cons.mp hch with rfl | h
    · exact Or.inl rfl
    · exact Or.inr (decBody_chars m e ch h)
  · exact Or.inr (decBody_chars m e ch hch)

theorem isDigitCh_ne_crlf (c : Char) (h : isDigitCh c = true) : c ≠ '\r' ∧ c ≠ '\n' := by
  constructor <;> (rintro rfl; exact absurd h (by decide))

theorem renderNum_no_crlf (m : Int) (e : Nat) :
    ∀ ch ∈ renderNum m e, ch ≠ '\r' ∧ ch ≠ '\n' := by
  intro ch hch
  rcases renderNum_chars m e ch hch with rfl | rfl | h
  · exact ⟨by decide, by decide⟩
  · exact ⟨by decide, by decide⟩
  · exact isDigitCh_ne_crlf ch h

theorem jsonRender_no_crlf :
    ∀ v : Value, ∀ ch ∈ jsonRender v, ch ≠ '\r' ∧ ch ≠ '\n' := by
  have helems : ∀ xs : List Value,
      (∀ x ∈ xs, ∀ ch ∈ jsonRender x, ch ≠ '\r' ∧ ch ≠ '\n') →
      ∀ ch ∈ jsonRenderElems xs, ch ≠ '\r' ∧ ch ≠ '\n' := by
    intro xs
    induction xs with
    | nil => intro _ ch hch; simp [jsonRenderElems] at hch
    | cons x rest ih =>
      intro hmem ch hch
      cases rest with
      | nil => exact hmem x (by simp) ch hch
      | cons y ys =>
        rw [show jsonRenderElems (x :: y :: ys) =
          jsonRender x ++ ',' :: jsonRenderElems (y :: ys) from rfl] at hch
        rcases List.mem_append.mp hch with h | h
        · exact hmem x (by simp) ch h
        · rcases List.mem_cons.mp h with rfl | h2
          · exact ⟨by decide, by decide⟩
          · exact ih (fun z hz => hmem z (by simp [hz])) ch h2
  intro v
  induction v using value_induction with
  | h0 =>
    intro ch hch
    rw [show jsonRender .null = ['n', 'u', 'l', 'l'] from rfl] at hch
    simp only [List.mem_cons, List.not_mem_nil, or_false] at hch
    rcases hch with rfl | rfl | rfl | rfl <;> exact ⟨by decide, by decide⟩
  | h1 b =>
    cases b with
    | false =>
      intro ch hch
      rw [show jsonRender (.bool false) = ['f', 'a', 'l', 's', 'e'] from rfl] at hch
      simp only [List.mem_cons, List.not_mem_nil, or_false] at hch
      rcases hch with rfl | rfl | rfl | rfl | rfl <;> exact ⟨by decide, by decide⟩
    | true =>
      intro ch hch
      rw [show jsonRender (.bool true) = ['t', 'r', 'u', 'e'] from rfl] at hch
      simp only [List.mem_cons, List.not_mem_nil, or_false] at hch
      rcases hch with rfl | rfl | rfl | rfl <;> exact ⟨by decide, by decide⟩
  | h2 m e => exact renderNum_no_crlf m e
  | h3 s =>
    intro ch hch
    rw [show jsonRender (.str s) = '"' :: escAll s ++ ['"'] from rfl] at hch
    rcases List.mem_cons.mp hch with rfl | h
    · exact ⟨by decide, by decide⟩
    · rcases List.mem_append.mp h with h2 | h2
      · exact escAll_no_crlf s ch h2
      · rcases List.mem_singleton.mp h2 with rfl
        exact ⟨by decide, by decide⟩
  | h4 xs ih =>
    intro ch hch
    rw [show jsonRender (.arr xs) = '[' :: jsonRenderElems xs ++ [']'] from rfl] at hch
    rcases List.mem_cons.mp hch with rfl | h
    · exact ⟨by decide, by decide⟩
    · rcases List.mem_append.mp h with h2 | h2
      · exact helems xs ih ch h2
      · rcases List.mem_singleton.mp h2 with rfl
        exact ⟨by decide, by decide⟩

theorem jsonRender_hasCRLF_false (v : Value) : hasCRLF (jsonRender v) = false :=
  hasCRLF_eq_false_of_no_cr _ (fun h => (jsonRender_no_crlf v '\r' h).1 rfl)

theorem renderNat_hasCRLF_false (n : Nat) : hasCRLF (renderNat n) = false := by
  apply hasCRLF_eq_false_of_no_cr
  intro h
  have hd := List.all_eq_true.mp (renderNat_all_digits n) _ h
  exact (isDigitCh_ne_crlf _ hd).1 rfl

theorem trim_jsonRender_arr (xs : List Value) :
    trim (jsonRender (.arr xs)) = jsonRender (.arr xs) := by
  apply trim_eq_self
  · intro c hc
    have hc2 : (some '[' : Option Char) = some c := hc
    rcases Option.some.inj hc2 with rfl
    rfl
  · intro c hc
    rw [show jsonRender (.arr xs) = ('[' :: jsonRenderElems xs) ++ [']'] from rfl,
      List.getLast?_concat] at hc
    rcases Option.some.inj hc with rfl
    rfl

theorem splitCRLF_wrapFrame (json rest : Str) (hjson : hasCRLF json = false) :
    splitCRLF (wrapFrame json ++ rest) =
      renderNat (json.length + 2) :: json :: splitCRLF rest := by
  rw [show wrapFrame json ++ rest =
    renderNat (json.length + 2) ++ '\r' :: '\n' :: (json ++ '\r' :: '\n' :: rest) by
      simp [wrapFrame, CRLF]]
  rw [splitCRLF_append _ _ (renderNat_hasCRLF_false _), splitCRLF_append _ _ hjson]

theorem unwrapFrame_two_lines (l0 l1 rest : Str)
    (h0 : hasCRLF l0 = false) (h1 : hasCRLF l1 = false) :
    unwrapFrame (l0 ++ CRLF ++ l1 ++ CRLF ++ rest) =
      (match atoi (trim l0) with
      | none => .error .sizeFormat
      | some expected =>
        if ((trim l1).length : Int) + 2 ≠ expected then
          .error (.sizeMismatch expected (((trim l1).length : Int) + 2))
        else .ok (trim l1)) := by
  have hsplit : splitCRLF (l0 ++ CRLF ++ l1 ++ CRLF ++ rest) =
      l0 :: l1 :: splitCRLF rest := by
    rw [show l0 ++ CRLF ++ l1 ++ CRLF ++ rest =
      l0 ++ '\r' :: '\n' :: (l1 ++ '\r' :: '\n' :: rest) by simp [CRLF]]
    rw [splitCRLF_append _ _ h0, splitCRLF_append _ _ h1]
  have hlines : frameLines (l0 ++ CRLF ++ l1 ++ CRLF ++ rest) = l0 :: l1 :: splitCRLF rest := by
    unfold frameLines
    rw [hsplit, if_neg (by simp)]
  unfold unwrapFrame
  rw [hlines, if_neg (by simp)]
  simp only [List.getD_cons_zero, List.getD_cons_succ]

theorem unwrapFrame_wrapFrame_of (json : Str) (rest : Str)
    (hjson : hasCRLF json = false) (htrim : trim json = json) :
    unwrapFrame (wrapFrame json ++ rest) = .ok json := by
  rw [show wrapFrame json ++ rest =
    renderNat (json.length + 2) ++ CRLF ++ json ++ CRLF ++ rest by simp [wrapFrame, CRLF]]
  rw [unwrapFrame_two_lines _ _ _ (renderNat_hasCRLF_false _) hjson]
  rw [trim_renderNat, atoi_renderNat, htrim]
  simp

/-- C3: both marshal functions emit exactly the decimal rendering of
`len(jsonBytes) + 2`, then CRLF, then the JSON bytes, then CRLF — the
trailing CRLF is the "+ 2" inside the declared size, and the leading
size line is not counted. -/
theorem c3_marshal_frame_bytes :
    (∀ r : Record, MarshalExplicitSchema r =
      renderNat ((jsonRender (.arr (structToArray r))).length + 2) ++ CRLF ++
        jsonRender (.arr (structToArray r)) ++ CRLF)
    ∧ (∀ sch : ImplicitSchema, MarshalImplicitSchema sch =
      renderNat ((jsonRender (.arr sch)).length + 2) ++ CRLF ++
        jsonRender (.arr sch) ++ CRLF) :=
  ⟨fun _ => rfl, fun _ => rfl⟩

/-- C9: when the first two CRLF-separated segments form a well-formed
frame (integral size line matching the trimmed payload length plus two,
payload parsing as a JSON array), single-frame decoding examines only
those two segments: appending any further bytes after the second CRLF
leaves the result of both unmarshal functions unchanged, and the implicit
decode succeeds with the parsed array. -/
theorem c9_trailing_data_ignored (l0 l1 rest : Str) (fs : RecordTy) (vs : List Value)
    (h0 : hasCRLF l0 = false) (h1 : hasCRLF l1 = false)
    (hsize : atoi (trim l0) = some (((trim l1).length : Int) + 2))
    (hjson : jsonParse (trim l1) = some (.arr vs)) :
    UnmarshalExplicitSchema fs (l0 ++ CRLF ++ l1 ++ CRLF ++ rest) =
      UnmarshalExplicitSchema fs (l0 ++ CRLF ++ l1 ++ CRLF)
    ∧ UnmarshalImplicitSchema (l0 ++ CRLF ++ l1 ++ CRLF ++ rest) =
      UnmarshalImplicitSchema (l0 ++ CRLF ++ l1 ++ CRLF)
    ∧ UnmarshalImplicitSchema (l0 ++ CRLF ++ l1 ++ CRLF ++ rest) = .ok vs := by
  have hw : ∀ r2 : Str, unwrapFrame (l0 ++ CRLF ++ l1 ++ CRLF ++ r2) = .ok (trim l1) := by
    intro r2
    rw [unwrapFrame_two_lines _ _ _ h0 h1, hsize]
    simp
  have hw0 : unwrapFrame (l0 ++ CRLF ++ l1 ++ CRLF) = .ok (trim l1) := by
    have h := hw []
    rw [List.append_nil] at h
    exact h
  refine ⟨?_, ?_, ?_⟩
  · unfold UnmarshalExplicitSchema
    rw [hw rest, hw0]
  · unfold UnmarshalImplicitSchema
    rw [hw rest, hw0]
  · unfold UnmarshalImplicitSchema
    rw [hw rest]
    simp [hjson]

/-- Witness for C9: the frame `4 CRLF [] CRLF` followed by trailing junk
decodes identically to the frame alone, yielding the empty array. -/
theorem c9_trailing_data_ignored_witness :
    UnmarshalExplicitSchema [] (['4'] ++ CRLF ++ ['[', ']'] ++ CRLF ++ ['j', 'u', 'n', 'k']) =
      UnmarshalExplicitSchema [] (['4'] ++ CRLF ++ ['[', ']'] ++ CRLF)
    ∧ UnmarshalImplicitSchema (['4'] ++ CRLF ++ ['[', ']'] ++ CRLF ++ ['j', 'u', 'n', 'k']) =
      UnmarshalImplicitSchema (['4'] ++ CRLF ++ ['[', ']'] ++ CRLF)
    ∧ UnmarshalImplicitSchema (['4'] ++ CRLF ++ ['[', ']'] ++ CRLF ++ ['j', 'u', 'n', 'k']) =
      .ok [] :=
  c9_trailing_data_ignored ['4'] ['[', ']'] ['j', 'u', 'n', 'k'] [] []
    (by decide) (by decide) (by decide) rfl

/- Number parse/render roundtrip. -/

theorem digitsMSD_ne_nil (n : Nat) : digitsMSD n ≠ [] := by
  unfold digitsMSD
  split
  · simp
  · simp only [ne_eq, List.reverse_eq_nil_iff]
    exact Nat.digits_ne_nil_iff_ne_zero.mpr (by assumption)

theorem valMSD_replicate_zero (k : Nat) : valMSD (List.replicate k 0) = 0 := by
  induction k with
  | zero => rfl
  | succ k ih =>
    rw [List.replicate_succ]
    show valMSD (List.replicate k 0) = 0
    exact ih

theorem valMSD_decDigits (m : Int) (e : Nat) : valMSD (decDigits m e) = m.natAbs := by
  unfold decDigits
  split
  · exact valMSD_digitsMSD _
  · rw [valMSD_append, valMSD_replicate_zero, valMSD_digitsMSD]
    simp

theorem decDigits_length_ge (m : Int) (e : Nat) (he : e ≠ 0) :
    e + 1 ≤ (decDigits m e).length := by
  unfold decDigits
  rw [if_neg he, List.length_append, List.length_replicate]
  have := digitsMSD_ne_nil m.natAbs
  have h1 : 1 ≤ (digitsMSD m.natAbs).length := by
    rcases hd : digitsMSD m.natAbs with _ | ⟨a, l⟩
    · exact absurd hd this
    · simp
  omega

theorem takeDigits_spec (D : List Nat) (rest : Str) (hD : ∀ d ∈ D, d < 10)
    (hrest : ∀ c, rest.head? = some c → isDigitCh c = false) :
    takeDigits (D.map digitChar ++ rest) = (D, rest) := by
  induction D with
  | nil =>
    simp only [List.map_nil, List.nil_append]
    cases rest with
    | nil => rfl
    | cons c t =>
      rw [takeDigits, if_neg (by simp [hrest c rfl])]
  | cons d D ih =>
    simp only [List.map_cons, List.cons_append]
    rw [takeDigits]
    have hd := digitChar_spec d (hD d (by simp))
    rw [if_pos hd.1, ih (fun x hx => hD x (by simp [hx]))]
    simp [hd.2]

theorem renderNat_takeDigits (n : Nat) (rest : Str)
    (hrest : ∀ c, rest.head? = some c → isDigitCh c = false) :
    takeDigits (renderNat n ++ rest) = (digitsMSD n, rest) := by
  unfold renderNat
  exact takeDigits_spec _ _ (digitsMSD_lt n) hrest

theorem parseDecBody_renderNat (n : Nat) (rest : Str)
    (hrest : ∀ c, rest.head? = some c → isDigitCh c = false ∧ c ≠ '.') :
    parseDecBody (renderNat n ++ rest) = some (n, 0, rest) := by
  unfold parseDecBody
  rw [renderNat_takeDigits n rest (fun c hc => (hrest c hc).1)]
  rw [if_neg (by simpa using digitsMSD_ne_nil n)]
  cases rest with
  | nil => simp [valMSD_digitsMSD]
  | cons c t =>
    dsimp only
    rw [if_neg (show ¬c = '.' from (hrest c rfl).2)]
    simp [valMSD_digitsMSD]

theorem parseDecBody_decBody (m : Int) (e : Nat) (rest : Str)
    (hrest : ∀ c, rest.head? = some c → isDigitCh c = false ∧ c ≠ '.') :
    parseDecBody (decBody m e ++ rest) = some (m.natAbs, e, rest) := by
  by_cases he : e = 0
  · subst he
    have hbody : decBody m 0 = renderNat m.natAbs := rfl
    rw [hbody, parseDecBody_renderNat _ _ hrest]
  · have hL := decDigits_length_ge m e he
    set ds := decDigits m e with hds
    set front := ds.take (ds.length - e) with hfront
    set frac := ds.drop (ds.length - e) with hfrac
    have hsplit : front ++ frac = ds := List.take_append_drop _ _
    have hfrontlen : front.length = ds.length - e := by
      rw [hfront, List.length_take]
      omega
    have hfraclen : frac.length = e := by
      rw [hfrac, List.length_drop]
      omega
    have hds10 : ∀ d ∈ ds, d < 10 := decDigits_lt m e
    have hfront10 : ∀ d ∈ front, d < 10 := fun d hd => hds10 d (List.take_subset _ _ hd)
    have hfrac10 : ∀ d ∈ frac, d < 10 := fun d hd => hds10 d (List.drop_subset _ _ hd)
    have hbody : decBody m e = front.map digitChar ++ '.' :: frac.map digitChar := by
      unfold decBody
      rw [if_neg he]
    rw [hbody]
    unfold parseDecBody
    rw [show front.map digitChar ++ '.' :: frac.map digitChar ++ rest =
      front.map digitChar ++ ('.' :: (frac.map digitChar ++ rest)) by simp]
    rw [takeDigits_spec front _ hfront10 (fun c hc => by
      rcases Option.some.inj hc.symm with rfl  -- hc : head? ('.'::..) = some c
      rfl)]
    have hfrne : front ≠ [] := by
      intro hf
      rw [hf] at hfrontlen
      simp at hfrontlen
      omega
    rw [if_neg (by simpa using hfrne)]
    dsimp only
    rw [if_pos rfl]
    rw [takeDigits_spec frac rest hfrac10 (fun c hc => (hrest c hc).1)]
    have hfracne : frac ≠ [] := by
      intro hf
      rw [hf] at hfraclen
      simp at hfraclen
      omega
    rw [if_neg (by simpa using hfracne)]
    have hval : valMSD front * 10 ^ frac.length + valMSD frac = m.natAbs := by
      rw [← valMSD_append, hsplit, hds, valMSD_decDigits]
    simp only [hfraclen] at hval ⊢
    rw [hval]

theorem digitChar_ne_minus (d : Nat) (h : d < 10) : digitChar d ≠ '-' := by
  interval_cases d <;> decide

theorem renderNum_zero_e (m : Int) : renderNum m 0 =
    (if m < 0 then ['-'] else []) ++ renderNat m.natAbs := by
  unfold renderNum
  split <;> rfl

theorem decBody_ne_nil (m : Int) (e : Nat) : decBody m e ≠ [] := by
  unfold decBody
  split
  · next he =>
    simp only [ne_eq, List.map_eq_nil_iff]
    intro h
    apply digitsMSD_ne_nil m.natAbs
    unfold decDigits at h
    rw [if_pos he] at h
    exact h
  · simp

theorem parseNumTok_renderNum (m : Int) (e : Nat) (rest : Str)
    (hrest : ∀ c, rest.head? = some c → isDigitCh c = false ∧ c ≠ '.') :
    parseNumTok (renderNum m e ++ rest) = some (.num m e, rest) := by
  have hbody := parseDecBody_decBody m e rest hrest
  obtain ⟨c, cs, hb⟩ : ∃ c cs, decBody m e = c :: cs := by
    rcases h : decBody m e with _ | ⟨c, cs⟩
    · exact absurd h (decBody_ne_nil m e)
    · exact ⟨c, cs, rfl⟩
  have hc := decBody_chars m e c (by rw [hb]; simp)
  have hcnm : c ≠ '-' := by
    rcases hc with rfl | hd
    · decide
    · simp only [isDigitCh, Bool.and_eq_true, decide_eq_true_eq] at hd
      intro hcm
      subst hcm
      exact absurd hd (by decide)
  unfold renderNum
  by_cases hm : m < 0
  · rw [if_pos hm]
    rw [show ('-' :: decBody m e) ++ rest = '-' :: (decBody m e ++ rest) from rfl]
    unfold parseNumTok
    dsimp only
    rw [if_pos rfl, hbody]
    show some (Value.num (-(m.natAbs : Int)) e, rest) = some (Value.num m e, rest)
    have hneg : (-(m.natAbs : Int)) = m := by omega
    rw [hneg]
  · rw [if_neg hm, hb]
    rw [show (c :: cs) ++ rest = c :: (cs ++ rest) from rfl]
    unfold parseNumTok
    dsimp only
    rw [if_neg hcnm]
    rw [show c :: (cs ++ rest) = (c :: cs) ++ rest from rfl, ← hb, hbody]
    show some (Value.num ((m.natAbs : Int)) e, rest) = some (Value.num m e, rest)
    have hnat : ((m.natAbs : Int)) = m := by omega
    rw [hnat]

/- String parse/render roundtrip. -/

theorem hexVal_hexChar (n : Nat) (h : n < 16) : hexVal (hexChar n) = some n := by
  interval_cases n <;> decide

theorem char_ofNat_toNat (c : Char) : Char.ofNat c.toNat = c := Char.ofNat_toNat c

theorem parseStringBody_escAll (s : Str) (rest : Str) :
    parseStringBody (escAll s ++ '"' :: rest) = some (s, rest) := by
  induction s with
  | nil =>
    rw [show escAll [] ++ '"' :: rest = '"' :: rest from rfl]
    unfold parseStringBody
    rw [if_pos rfl]
  | cons c t ih =>
    rw [show escAll (c :: t) ++ '"' :: rest = escapeChar c ++ (escAll t ++ '"' :: rest) by
      simp [escAll]]
    unfold escapeChar
    split_ifs with h1 h2 h3 h4 h5 h6 h7
    · subst h1
      show parseStringBody ('\\' :: '"' :: (escAll t ++ '"' :: rest)) = _
      unfold parseStringBody
      dsimp only
      rw [if_neg (by decide), if_pos rfl, if_pos rfl, ih]
      rfl
    · subst h2
      show parseStringBody ('\\' :: '\\' :: (escAll t ++ '"' :: rest)) = _
      unfold parseStringBody
      dsimp only
      rw [if_neg (by decide), if_pos rfl, if_neg (by decide), if_pos rfl, ih]
      rfl
    · subst h3
      show parseStringBody ('\\' :: 'n' :: (escAll t ++ '"' :: rest)) = _
      unfold parseStringBody
      dsimp only
      rw [if_neg (by decide), if_pos rfl, if_neg (by decide), if_neg (by decide),
        if_neg (by decide), if_neg (by decide), if_neg (by decide), if_pos rfl, ih]
      rfl
    · subst h4
      show parseStringBody ('\\' :: 'r' :: (escAll t ++ '"' :: rest)) = _
      unfold parseStringBody
      dsimp only
      rw [if_neg (by decide), if_pos rfl, if_neg (by decide), if_neg (by decide),
        if_neg (by decide), if_neg (by decide), if_neg (by decide), if_neg (by decide),
        if_pos rfl, ih]
      rfl
    · subst h5
      show parseStringBody ('\\' :: 't' :: (escAll t ++ '"' :: rest)) = _
      unfold parseStringBody
      dsimp only
      rw [if_neg (by decide), if_pos rfl, if_neg (by decide), if_neg (by decide),
        if_neg (by decide), if_neg (by decide), if_neg (by decide), if_neg (by decide),
        if_neg (by decide), if_pos rfl, ih]
      rfl
    · -- the \u00xx escape: c is one of <, >, & or a control character
      have hlt : c.toNat < 256 := by
        rcases h6 with rfl | rfl | rfl | hc
        · exact by decide
        · exact by decide
        · exact by decide
        · omega
      show parseStringBody ('\\' :: 'u' :: '0' :: '0' :: hexChar (c.toNat / 16) ::
        hexChar (c.toNat % 16) :: (escAll t ++ '"' :: rest)) = _
      unfold parseStringBody
      dsimp only
      rw [if_neg (by decide), if_pos rfl, if_neg (by decide), if_neg (by decide),
        if_neg (by decide), if_neg (by decide), if_neg (by decide), if_neg (by decide),
        if_neg (by decide), if_neg (by decide), if_pos rfl]
      rw [show hexVal '0' = some 0 from rfl]
      rw [hexVal_hexChar _ (Nat.div_lt_of_lt_mul (by omega)),
        hexVal_hexChar _ (Nat.mod_lt _ (by omega))]
      dsimp only
      rw [ih]
      have hcode : 4096 * 0 + 256 * 0 + 16 * (c.toNat / 16) + c.toNat % 16 = c.toNat := by
        omega
      rw [hcode, char_ofNat_toNat]
      rfl
    · -- the \u202x escape for the line separators
      show parseStringBody ('\\' :: 'u' :: '2' :: '0' :: '2' ::
        hexChar (c.toNat % 16) :: (escAll t ++ '"' :: rest)) = _
      unfold parseStringBody
      dsimp only
      rw [if_neg (by decide), if_pos rfl, if_neg (by decide), if_neg (by decide),
        if_neg (by decide), if_neg (by decide), if_neg (by decide), if_neg (by decide),
        if_neg (by decide), if_neg (by decide), if_pos rfl]
      rw [show hexVal '2' = some 2 from rfl, show hexVal '0' = some 0 from rfl]
      rw [hexVal_hexChar _ (Nat.mod_lt _ (by omega))]
      dsimp only
      rw [ih]
      have hcode : 4096 * 2 + 256 * 0 + 16 * 2 + c.toNat % 16 = c.toNat := by
        rcases h7 with h | h <;> omega
      rw [hcode, char_ofNat_toNat]
      rfl
    · show parseStringBody (c :: (escAll t ++ '"' :: rest)) = _
      unfold parseStringBody
      rw [if_neg h1, if_neg h2, ih]
      rfl

/- The parse/render roundtrip for whole JSON values. -/

theorem expectLit_append (lit s : Str) : expectLit lit (lit ++ s) = some s := by
  induction lit with
  | nil => rfl
  | cons c cs ih =>
    show expectLit (c :: cs) ((c :: cs) ++ s) = some s
    rw [show (c :: cs) ++ s = c :: (cs ++ s) from rfl]
    unfold expectLit
    rw [if_pos rfl, ih]

theorem renderNum_ne_nil (m : Int) (e : Nat) : renderNum m e ≠ [] := by
  unfold renderNum
  split
  · simp
  · exact decBody_ne_nil m e

theorem numClass_head_props (c : Char) (h : c = '-' ∨ c = '.' ∨ isDigitCh c = true) :
    isJsonWs c = false ∧ c ≠ ']' ∧ c ≠ 'n' ∧ c ≠ 't' ∧ c ≠ 'f' ∧ c ≠ '"' ∧ c ≠ '[' := by
  rcases h with rfl | rfl | hd
  · exact ⟨by decide, by decide, by decide, by decide, by decide, by decide, by decide⟩
  · exact ⟨by decide, by decide, by decide, by decide, by decide, by decide, by decide⟩
  · refine ⟨?_, ?_, ?_, ?_, ?_, ?_, ?_⟩ <;>
      first
        | (simp only [isJsonWs, Bool.or_eq_false_iff, decide_eq_false_iff_not]
           refine ⟨⟨⟨fun hc => ?_, fun hc => ?_⟩, fun hc => ?_⟩, fun hc => ?_⟩ <;>
             (subst hc; exact absurd hd (by decide)))
        | (intro hc; subst hc; exact absurd hd (by decide))

theorem jsonRender_head (v : Value) :
    ∃ c cs, jsonRender v = c :: cs ∧ isJsonWs c = false ∧ c ≠ ']' := by
  cases v with
  | null => exact ⟨'n', _, rfl, by decide, by decide⟩
  | bool b =>
    cases b with
    | false => exact ⟨'f', _, rfl, by decide, by decide⟩
    | true => exact ⟨'t', _, rfl, by decide, by decide⟩
  | num m e =>
    rcases hr : renderNum m e with _ | ⟨c, cs⟩
    · exact absurd hr (renderNum_ne_nil m e)
    · have hc := renderNum_chars m e c (by rw [hr]; simp)
      have hp := numClass_head_props c hc
      exact ⟨c, cs, hr, hp.1, hp.2.1⟩
  | str s => exact ⟨'"', _, rfl, by decide, by decide⟩
  | arr xs => exact ⟨'[', _, rfl, by decide, by decide⟩

theorem skipWs_cons (c : Char) (t : Str) (h : isJsonWs c = false) : skipWs (c :: t) = c :: t := by
  unfold skipWs
  rw [List.dropWhile_cons_of_neg]
  simp [h]

theorem jsonRenderElems_cons_eq (y : Value) (zs : List Value) :
    ∃ T, jsonRenderElems (y :: zs) = jsonRender y ++ T := by
  cases zs with
  | nil => exact ⟨[], by simp [jsonRenderElems]⟩
  | cons z zs => exact ⟨',' :: jsonRenderElems (z :: zs), rfl⟩

theorem delimOk_head_num (rest : Str) (hr : delimOk rest) :
    ∀ c, rest.head? = some c → isDigitCh c = false ∧ c ≠ '.' := by
  intro c hc
  cases rest with
  | nil => simp at hc
  | cons d t =>
    rcases Option.some.inj hc with rfl
    rcases hr with rfl | rfl
    · exact ⟨by decide, by decide⟩
    · exact ⟨by decide, by decide⟩

theorem parseElems_render (xs : List Value)
    (ih : ∀ x ∈ xs, ∀ fuel rest, fuelOf x ≤ fuel → delimOk rest →
      parseValue fuel (jsonRender x ++ rest) = some (x, rest)) :
    ∀ (fuel : Nat) (rest : Str), xs ≠ [] → elemsFuel xs ≤ fuel → delimOk rest →
    parseElems fuel (jsonRenderElems xs ++ ']' :: rest) = some (xs, rest) := by
  induction xs with
  | nil => intro _ _ h; exact absurd rfl h
  | cons x ys ihl =>
    intro fuel rest _ hf hr
    have hf' : 1 + fuelOf x + elemsFuel ys ≤ fuel := hf
    cases fuel with
    | zero => omega
    | succ f =>
      cases ys with
      | nil =>
        have hone : jsonRenderElems [x] ++ ']' :: rest = jsonRender x ++ (']' :: rest) := by
          simp [jsonRenderElems]
        rw [hone]
        unfold parseElems
        rw [ih x (by simp) f (']' :: rest)
          (by have : elemsFuel ([] : List Value) = 1 := rfl; omega)
          (Or.inr rfl)]
        dsimp only
        rw [skipWs_cons _ _ (by decide)]
        dsimp only
        rw [if_neg (by decide), if_pos rfl]
      | cons y zs =>
        have htwo : jsonRenderElems (x :: y :: zs) ++ ']' :: rest =
            jsonRender x ++ (',' :: (jsonRenderElems (y :: zs) ++ ']' :: rest)) := by
          rw [show jsonRenderElems (x :: y :: zs) =
            jsonRender x ++ ',' :: jsonRenderElems (y :: zs) from rfl]
          simp
        rw [htwo]
        unfold parseElems
        rw [ih x (by simp) f _ (by omega)
          (show delimOk (',' :: (jsonRenderElems (y :: zs) ++ ']' :: rest)) from Or.inl rfl)]
        dsimp only
        rw [skipWs_cons _ _ (by decide)]
        dsimp only
        rw [if_pos rfl]
        obtain ⟨c, cs, hcy, hws, hbr⟩ := jsonRender_head y
        obtain ⟨T, hT⟩ := jsonRenderElems_cons_eq y zs
        have hshape : jsonRenderElems (y :: zs) ++ ']' :: rest =
            c :: (cs ++ T ++ ']' :: rest) := by
          rw [hT, hcy]
          simp
        rw [hshape, skipWs_cons _ _ hws, ← hshape]
        rw [ihl (fun z hz => ih z (by simp [hz])) f rest (by simp) (by
          have : elemsFuel (y :: zs) = 1 + fuelOf y + elemsFuel zs := rfl
          omega) hr]

theorem parseValue_render (v : Value) :
    ∀ (fuel : Nat) (rest : Str), fuelOf v ≤ fuel → delimOk rest →
    parseValue fuel (jsonRender v ++ rest) = some (v, rest) := by
  induction v using value_induction with
  | h0 =>
    intro fuel rest hf _
    have hf' : 1 ≤ fuel := hf
    cases fuel with
    | zero => omega
    | succ f =>
      rw [show jsonRender .null ++ rest = 'n' :: (['u', 'l', 'l'] ++ rest) from rfl]
      unfold parseValue
      dsimp only
      rw [if_pos rfl, expectLit_append]
      rfl
  | h1 b =>
    intro fuel rest hf _
    have hf' : 1 ≤ fuel := by cases b <;> exact hf
    cases fuel with
    | zero => omega
    | succ f =>
      cases b with
      | true =>
        rw [show jsonRender (.bool true) ++ rest = 't' :: (['r', 'u', 'e'] ++ rest) from rfl]
        unfold parseValue
        dsimp only
        rw [if_neg (by decide), if_pos rfl, expectLit_append]
        rfl
      | false =>
        rw [show jsonRender (.bool false) ++ rest =
          'f' :: (['a', 'l', 's', 'e'] ++ rest) from rfl]
        unfold parseValue
        dsimp only
        rw [if_neg (by decide), if_neg (by decide), if_pos rfl, expectLit_append]
        rfl
  | h2 m e =>
    intro fuel rest hf hr
    have hf' : 1 ≤ fuel := hf
    cases fuel with
    | zero => omega
    | succ f =>
      rcases hrn : renderNum m e with _ | ⟨c, cs⟩
      · exact absurd hrn (renderNum_ne_nil m e)
      · have hc := renderNum_chars m e c (by rw [hrn]; simp)
        have hp := numClass_head_props c hc
        rw [show jsonRender (.num m e) ++ rest = renderNum m e ++ rest from rfl, hrn]
        rw [show (c :: cs) ++ rest = c :: (cs ++ rest) from rfl]
        unfold parseValue
        dsimp only
        rw [if_neg hp.2.2.1, if_neg hp.2.2.2.1, if_neg hp.2.2.2.2.1,
          if_neg hp.2.2.2.2.2.1, if_neg hp.2.2.2.2.2.2]
        rw [show c :: (cs ++ rest) = (c :: cs) ++ rest from rfl, ← hrn]
        exact parseNumTok_renderNum m e rest (delimOk_head_num rest hr)
  | h3 s =>
    intro fuel rest hf _
    have hf' : 1 ≤ fuel := hf
    cases fuel with
    | zero => omega
    | succ f =>
      rw [show jsonRender (.str s) ++ rest = '"' :: (escAll s ++ '"' :: rest) by simp [jsonRender]]
      unfold parseValue
      dsimp only
      rw [if_neg (by decide), if_neg (by decide), if_neg (by decide), if_pos rfl,
        parseStringBody_escAll]
      rfl
  | h4 xs ih =>
    intro fuel rest hf hr
    have hf' : 1 + elemsFuel xs ≤ fuel := hf
    cases fuel with
    | zero => omega
    | succ f =>
      rw [show jsonRender (.arr xs) ++ rest =
        '[' :: (jsonRenderElems xs ++ ']' :: rest) by simp [jsonRender]]
      unfold parseValue
      dsimp only
      rw [if_neg (by decide), if_neg (by decide), if_neg (by decide), if_neg (by decide),
        if_pos rfl]
      cases xs with
      | nil =>
        rw [show jsonRenderElems ([] : List Value) ++ ']' :: rest = ']' :: rest from rfl]
        rw [skipWs_cons _ _ (by decide)]
        dsimp only
        rw [if_pos rfl]
      | cons y zs =>
        obtain ⟨c, cs, hcy, hws, hbr⟩ := jsonRender_head y
        obtain ⟨T, hT⟩ := jsonRenderElems_cons_eq y zs
        have hshape : jsonRenderElems (y :: zs) ++ ']' :: rest =
            c :: (cs ++ T ++ ']' :: rest) := by
          rw [hT, hcy]
          simp
        rw [hshape, skipWs_cons _ _ hws]
        dsimp only
        rw [if_neg hbr, ← hshape]
        rw [parseElems_render (y :: zs) ih f rest (by simp) (by
          have : elemsFuel (y :: zs) = 1 + fuelOf y + elemsFuel zs := rfl
          have h2 : fuelOf (Value.arr (y :: zs)) = 1 + elemsFuel (y :: zs) := rfl
          omega) hr]
        rfl

theorem elemsFuel_le_render (xs : List Value)
    (ih : ∀ x ∈ xs, fuelOf x ≤ 2 * (jsonRender x).length + 1) :
    elemsFuel xs ≤ 2 * (jsonRenderElems xs).length + 3 := by
  induction xs with
  | nil =>
    have h : elemsFuel ([] : List Value) = 1 := rfl
    omega
  | cons x ys ihl =>
    cases ys with
    | nil =>
      have h1 : elemsFuel [x] = 1 + fuelOf x + 1 := rfl
      have h2 : jsonRenderElems [x] = jsonRender x := rfl
      have h3 := ih x (by simp)
      rw [h1, h2]
      omega
    | cons y zs =>
      have h1 : elemsFuel (x :: y :: zs) = 1 + fuelOf x + elemsFuel (y :: zs) := rfl
      have h2 : jsonRenderElems (x :: y :: zs) =
          jsonRender x ++ ',' :: jsonRenderElems (y :: zs) := rfl
      have h3 := ih x (by simp)
      have h4 := ihl (fun z hz => ih z (by simp [hz]))
      rw [h1, h2]
      simp only [List.length_append, List.length_cons]
      omega

theorem fuelOf_le_render (v : Value) : fuelOf v ≤ 2 * (jsonRender v).length + 1 := by
  induction v using value_induction with
  | h0 =>
    have h : fuelOf .null = 1 := rfl
    omega
  | h1 b =>
    have h : fuelOf (.bool b) = 1 := by cases b <;> rfl
    omega
  | h2 m e =>
    have h : fuelOf (.num m e) = 1 := rfl
    omega
  | h3 s =>
    have h : fuelOf (.str s) = 1 := rfl
    omega
  | h4 xs ih =>
    have h1 : fuelOf (.arr xs) = 1 + elemsFuel xs := rfl
    have h2 : (jsonRender (.arr xs)).length = (jsonRenderElems xs).length + 2 := by
      rw [show jsonRender (.arr xs) = '[' :: jsonRenderElems xs ++ [']'] from rfl]
      simp
    have h3 := elemsFuel_le_render xs ih
    rw [h1, h2]
    omega

theorem jsonParse_jsonRender (v : Value) : jsonParse (jsonRender v) = some v := by
  unfold jsonParse
  obtain ⟨c, cs, hcv, hws, _⟩ := jsonRender_head v
  have hskip : skipWs (jsonRender v) = jsonRender v := by
    rw [hcv]
    exact skipWs_cons _ _ hws
  rw [hskip]
  have hp := parseValue_render v (2 * (jsonRender v).length + 2) [] (by
    have := fuelOf_le_render v
    omega) trivial
  rw [List.append_nil] at hp
  rw [hp]
  rfl

theorem unmarshalImplicit_marshalImplicit (sch : ImplicitSchema) :
    UnmarshalImplicitSchema (MarshalImplicitSchema sch) = .ok sch := by
  unfold UnmarshalImplicitSchema MarshalImplicitSchema
  have hw : unwrapFrame (wrapFrame (jsonRender (.arr sch))) = .ok (jsonRender (.arr sch)) := by
    have h := unwrapFrame_wrapFrame_of (jsonRender (.arr sch)) []
      (jsonRender_hasCRLF_false _) (trim_jsonRender_arr _)
    rw [List.append_nil] at h
    exact h
  rw [hw]
  simp [jsonParse_jsonRender (.arr sch)]

theorem splitCRLF_joinFrames (ss : List ImplicitSchema) :
    splitCRLF (joinFrames ss) = frameLineList ss ++ [[]] := by
  induction ss with
  | nil => rfl
  | cons sch rest ih =>
    have harr : joinFrames (sch :: rest) =
        renderNat ((jsonRender (.arr sch)).length + 2) ++ '\r' :: '\n' ::
          (jsonRender (.arr sch) ++ '\r' :: '\n' :: joinFrames rest) := by
      show MarshalImplicitSchema sch ++ joinFrames rest = _
      simp [MarshalImplicitSchema, wrapFrame, CRLF]
    rw [harr, splitCRLF_append _ _ (renderNat_hasCRLF_false _),
      splitCRLF_append _ _ (jsonRender_hasCRLF_false _), ih]
    rfl

theorem parsePairs_frameLineList (ss : List ImplicitSchema) (i : Nat) :
    parsePairs CRLF i (frameLineList ss ++ [[]]) = .ok ss := by
  induction ss generalizing i with
  | nil => rfl
  | cons sch rest ih =>
    rw [show frameLineList (sch :: rest) ++ [[]] =
      renderNat ((jsonRender (.arr sch)).length + 2) ::
        jsonRender (.arr sch) :: (frameLineList rest ++ [[]]) from rfl]
    rw [parsePairs]
    rw [if_neg (by rw [trim_renderNat]; exact renderNat_ne_nil _)]
    have hframe : renderNat ((jsonRender (.arr sch)).length + 2) ++ CRLF ++
        jsonRender (.arr sch) ++ CRLF = MarshalImplicitSchema sch := rfl
    rw [hframe, unmarshalImplicit_marshalImplicit, ih]

/-- C8: for a marker free of line-break bytes, decoding the marshalled
stream recovers the marker and the schema list exactly, in order; and the
zero-schema stream marshals to precisely the marker followed by two CRLFs.
Modelled from the spec: the two-argument header-framed
`MarshalImplicitSchema(schema, true)` / `UnmarshalImplicitSchema(data, true)`
the stream code calls are not under src; per spec section 6 the `true`
mode is the header-framed single-frame codec embedded above. -/
theorem c8_stream_roundtrip (marker : Str) (ss : List ImplicitSchema)
    (hr : '\r' ∉ marker) (hn : '\n' ∉ marker) :
    UnmarshalImplicitStream (MarshalImplicitStream ⟨marker, ss⟩) = .ok ⟨marker, ss⟩
    ∧ MarshalImplicitStream ⟨marker, []⟩ = marker ++ CRLF ++ CRLF := by
  refine ⟨?_, by simp [MarshalImplicitStream, joinFrames]⟩
  have hsplit : splitCRLF (MarshalImplicitStream ⟨marker, ss⟩) =
      marker :: [] :: (frameLineList ss ++ [[]]) := by
    rw [show MarshalImplicitStream ⟨marker, ss⟩ =
      marker ++ '\r' :: '\n' :: (([] : Str) ++ '\r' :: '\n' :: joinFrames ss) by
        simp [MarshalImplicitStream, CRLF]]
    rw [splitCRLF_append _ _ (hasCRLF_eq_false_of_no_cr _ hr),
      splitCRLF_append _ _ (by rfl), splitCRLF_joinFrames]
  unfold UnmarshalImplicitStream
  simp only [hsplit]
  rw [if_neg (by simp)]
  rw [show (marker :: [] :: (frameLineList ss ++ [[]])).drop 2 =
    frameLineList ss ++ [[]] from rfl]
  rw [parsePairs_frameLineList]
  rfl

theorem c8_stream_roundtrip_witness :
    ('\r' ∉ (['B', 'E', '!'] : Str)) ∧ ('\n' ∉ (['B', 'E', '!'] : Str)) ∧
    (UnmarshalImplicitStream (MarshalImplicitStream
        ⟨['B', 'E', '!'], [[Value.str ['a']], [Value.num 42 0, Value.bool true]]⟩) =
      .ok ⟨['B', 'E', '!'], [[Value.str ['a']], [Value.num 42 0, Value.bool true]]⟩
    ∧ MarshalImplicitStream ⟨['B', 'E', '!'], []⟩ = ['B', 'E', '!'] ++ CRLF ++ CRLF) :=
  ⟨by decide, by decide,
    c8_stream_roundtrip ['B', 'E', '!']
      [[Value.str ['a']], [Value.num 42 0, Value.bool true]] (by decide) (by decide)⟩

/- Round-trip of the explicit codec: decode of encode under distinct
positive positions. -/

theorem c5_null_counterexample :
    arrayToStruct [Value.null]
      [(['A'], some 1, FieldTy.record [(['B'], some 1, FieldTy.str)])] =
      .error (.typeMismatch ['A']) := by
  rfl

/-- C5 (amended): a null element leaves the field at its zero value with
no error for scalar-typed fields at every depth and for record-typed
fields at nested depths; but at the TOP level a record-typed field whose
element is null fails with a type-mismatch error naming the field — the
spec's "any field type, any depth, never an error" is wrong there. -/
theorem c5_null_handling :
    (∀ ty : FieldTy, setFieldValue ty .null = zeroOfTy ty)
    ∧ (∀ ty : FieldTy, populateField ty .null = zeroOfTy ty)
    ∧ (∀ name fs, decodeTopField name (.record fs) .null =
        .error (.typeMismatch name))
    ∧ (∀ name, decodeTopField name .str .null = .ok (zeroOfTy .str)
        ∧ decodeTopField name .int .null = .ok (zeroOfTy .int)
        ∧ decodeTopField name .float .null = .ok (zeroOfTy .float)
        ∧ decodeTopField name .bool .null = .ok (zeroOfTy .bool)) := by
  refine ⟨fun ty => rfl, fun ty => ?_, fun name fs => rfl,
    fun name => ⟨rfl, rfl, rfl, rfl⟩⟩
  cases ty <;> rfl

theorem c6_nested_counterexample :
    arrayToStruct [Value.arr [Value.str ['x']]]
      [(['A'], some 1, FieldTy.record
        [(['B'], some 1, FieldTy.record [(['C'], some 1, FieldTy.str)])])] =
      .ok [(['A'], some 1, FieldVal.record
        [(['B'], some 1, FieldVal.record [(['C'], some 1, FieldVal.str [])])])] := by
  rfl

/-- C6 (amended): a record-typed field recurses into a sequence element
at every depth, and a non-sequence element is a type-mismatch error
naming the field at the TOP level only; at nested depths the code
silently leaves the nested record at its zero value with no error — the
spec's "at every nesting depth" is wrong for the error half. -/
theorem c6_nested_type_mismatch :
    (∀ name fs sub, decodeTopField name (.record fs) (.arr sub) =
        .ok (.record (populateFields sub 0 fs)))
    ∧ (∀ name fs v, (∀ sub, v ≠ .arr sub) →
        decodeTopField name (.record fs) v = .error (.typeMismatch name))
    ∧ (∀ fs sub, populateField (.record fs) (.arr sub) =
        .record (populateFields sub 0 fs))
    ∧ (∀ fs v, (∀ sub, v ≠ .arr sub) →
        populateField (.record fs) v = .record (zeroFields fs)) := by
  refine ⟨fun name fs sub => rfl, fun name fs v hv => ?_,
    fun fs sub => rfl, fun fs v hv => ?_⟩
  · cases v with
    | arr sub => exact absurd rfl (hv sub)
    | null => rfl
    | bool b => rfl
    | num m e => rfl
    | str s => rfl
  · cases v with
    | arr sub => exact absurd rfl (hv sub)
    | null => rfl
    | bool b => rfl
    | num m e => rfl
    | str s => rfl

theorem c6_nested_type_mismatch_witness :
    (∀ sub, Value.str ['x'] ≠ Value.arr sub)
    ∧ decodeTopField ['A'] (FieldTy.record [(['B'], some 1, FieldTy.str)])
        (Value.str ['x']) = .error (.typeMismatch ['A'])
    ∧ populateField (FieldTy.record [(['B'], some 1, FieldTy.str)])
        (Value.str ['x']) = .record (zeroFields [(['B'], some 1, FieldTy.str)]) :=
  ⟨fun sub h => Value.noConfusion h,
    c6_nested_type_mismatch.2.1 ['A'] [(['B'], some 1, FieldTy.str)]
      (Value.str ['x']) (fun sub h => Value.noConfusion h),
    c6_nested_type_mismatch.2.2.2 [(['B'], some 1, FieldTy.str)]
      (Value.str ['x']) (fun sub h => Value.noConfusion h)⟩

end BeSchema
